import Mathlib

/-!
Verification of the melody vLLM parser core (`cohere_melody_vllm/parser.py`):
the boundary-safe token buffering loop, the streaming delta aggregator, the
full reasoning/tool-call extraction passes, and the inline tool-call table
reconstruction, over a shallow embedding.  Python strings are modelled as
lists of unicode code points (`Str`); the external segmentation oracle
(`PyFilter`) and the tokenizer are abstract stateful parameters, with their
documented contracts taken as hypotheses where a claim needs them.
-/

namespace Melody

/-- Python strings are finite sequences of unicode code points. -/
abbrev Str := List Char

/-- Code-point list of a Lean string literal. -/
def S (s : String) : Str := s.data

/-- Concatenation of a list of fragments (python `"".join`). -/
def joinS (l : List Str) : Str := l.foldr (fun a b => a ++ b) []

/-- Constant `REPLACEMENT_CHAR = "�"` (parser.py line 28). -/
def replacementChar : Char := '�'

/-- Test `token_str.endswith(REPLACEMENT_CHAR)`: the last code point is U+FFFD
(parser.py lines 110 and 217). -/
def endsWithRep (s : Str) : Bool := decide (s.getLast? = some replacementChar)

/-- The token-buffering loop shared by `extract_reasoning` (lines 103-113)
and `extract_tool_calls` (lines 209-220), abstracted over the tokenizer's
`decode`: each token is appended to the pending run, the run is decoded, and
if the decoded text ends in U+FFFD nothing is released and the run is kept;
otherwise the decoded text is released and the run cleared.  Returns the
released fragments in order, together with the trailing pending run that was
never released. -/
def boundaryRun {α : Type} (decode : List α → Str) : List α → List α → List Str × List α
  | [], buf => ([], buf)
  | t :: ts, buf =>
    let buf2 := buf ++ [t]
    let s := decode buf2
    if endsWithRep s then boundaryRun decode ts buf2
    else
      let r := boundaryRun decode ts []
      (s :: r.1, r.2)

/-- A tool-call fragment as produced by the oracle (`o.tool_call_delta`):
id, position index, name, and an arguments-text delta. -/
structure ToolCallDelta where
  id : Str
  index : Nat
  name : Str
  raw_param_delta : Str
deriving DecidableEq, Repr

/-- One oracle output item `o`: optional channel text with its
`is_reasoning` flag, and an optional tool-call fragment. -/
structure Event where
  text : Option Str
  is_reasoning : Bool
  tool_call_delta : Option ToolCallDelta
deriving DecidableEq, Repr

/-- Model of vllm `DeltaFunctionCall` as used here: name plus arguments text. -/
structure DeltaFunctionCall where
  name : Str
  arguments : Str
deriving DecidableEq, Repr

/-- Model of vllm `DeltaToolCall` as used here. -/
structure DeltaToolCall where
  id : Str
  index : Nat
  type : Str
  function : DeltaFunctionCall
deriving DecidableEq, Repr

/-- Model of vllm `FunctionCall`. -/
structure FunctionCall where
  name : Str
  arguments : Str
deriving DecidableEq, Repr

/-- Model of vllm `ToolCall`. -/
structure ToolCall where
  id : Str
  type : Str
  function : FunctionCall
deriving DecidableEq, Repr

/-- Model of vllm `DeltaMessage`; fields left unset default to `none` / `[]`. -/
structure DeltaMessage where
  content : Option Str := none
  reasoning_content : Option Str := none
  tool_calls : List DeltaToolCall := []
deriving DecidableEq, Repr

/-- Model of vllm `ExtractedToolCallInformation`. -/
structure ExtractedToolCallInformation where
  tools_called : Bool
  tool_calls : List ToolCall
  content : Option Str
deriving DecidableEq, Repr

/-- Model of the `PyFilterOptions` configuration value, as far as parser.py builds it:
the `cmd3` base grammar flag and the ordered list of tokens removed from
recognition via `remove_token`. -/
structure PyFilterOptions where
  grammar_cmd3 : Bool
  removed_tokens : List Str
deriving DecidableEq, Repr

/-- Constructor call `PyFilterOptions()`. -/
def PyFilterOptions.new : PyFilterOptions := { grammar_cmd3 := false, removed_tokens := [] }

/-- Builder call `.cmd3()`. -/
def PyFilterOptions.cmd3 (o : PyFilterOptions) : PyFilterOptions :=
  { o with grammar_cmd3 := true }

/-- Builder call `.remove_token(t)`. -/
def PyFilterOptions.remove_token (o : PyFilterOptions) (t : Str) : PyFilterOptions :=
  { o with removed_tokens := o.removed_tokens ++ [t] }

/-- Options of the long-lived wire-mode filter, `PyFilterOptions().cmd3()`
(parser.py lines 36 and 165). -/
def wireOptions : PyFilterOptions := PyFilterOptions.new.cmd3

/-- Options of the sanitized filter built inside `extract_reasoning`
(parser.py lines 95-100):
`PyFilterOptions().cmd3().remove_token("<|START_ACTION|>").remove_token("<|END_ACTION|>")`. -/
def sanitizedOptions : PyFilterOptions :=
  ((PyFilterOptions.new.cmd3).remove_token (S "<|START_ACTION|>")).remove_token
    (S "<|END_ACTION|>")

/-- Build the `DeltaToolCall` emitted for a fragment (parser.py lines 64-72
and 188-196): `type="function"`, arguments from `raw_param_delta`. -/
def mkDeltaToolCall (d : ToolCallDelta) : DeltaToolCall :=
  { id := d.id, index := d.index, type := S "function",
    function := { name := d.name, arguments := d.raw_param_delta } }

/-- Accumulator of the streaming aggregation loop in
`extract_reasoning_streaming` (parser.py lines 50-52). -/
structure AggState where
  content : Option Str
  reasoning_content : Option Str
  tool_calls : List DeltaToolCall
deriving DecidableEq, Repr

/-- One iteration of the event loop of `extract_reasoning_streaming`
(parser.py lines 53-73): text is appended to the touched channel
(initialising it to the empty string on first touch), and a tool-call
fragment is appended to the delta list. -/
def aggStep (st : AggState) (o : Event) : AggState :=
  let st1 :=
    match o.text with
    | none => st
    | some t =>
      if o.is_reasoning then
        { st with reasoning_content := some ((st.reasoning_content.getD []) ++ t) }
      else
        { st with content := some ((st.content.getD []) ++ t) }
  match o.tool_call_delta with
  | none => st1
  | some d => { st1 with tool_calls := st1.tool_calls ++ [mkDeltaToolCall d] }

/-- Method `CohereCommand2ReasoningParser.extract_reasoning_streaming` (parser.py
lines 38-86).  The oracle is the abstract stateful `write` (the melody
`write_decoded` call on line 48); the instance's oracle state is passed in
and the advanced state returned.  The other positional arguments of the
Python method are unused by its body and omitted. -/
def extract_reasoning_streaming {σ : Type} (write : σ → Str → σ × List Event)
    (melody : σ) (delta_text : Str) : σ × Option DeltaMessage :=
  let m := (write melody delta_text).1
  let out := (write melody delta_text).2
  let st := out.foldl aggStep { content := none, reasoning_content := none, tool_calls := [] }
  if st.content = none ∧ st.reasoning_content = none ∧ st.tool_calls = [] then (m, none)
  else
    (m, some { content := st.content, reasoning_content := st.reasoning_content,
               tool_calls := st.tool_calls })

/-- The text-only event fold of `extract_reasoning` (parser.py lines
114-123); the accumulator is `(reasoning_content, content)` and tool-call
fragments on an event are ignored. -/
def textStep (acc : Option Str × Option Str) (o : Event) : Option Str × Option Str :=
  match o.text with
  | none => acc
  | some t =>
    if o.is_reasoning then (some ((acc.1.getD []) ++ t), acc.2)
    else (acc.1, some ((acc.2.getD []) ++ t))

/-- Loop state of `extract_reasoning` (parser.py lines 91-125): pending
token buffer, the local sanitized oracle state, and the two accumulators. -/
structure RLoop (τ σ : Type) where
  token_buf : List τ
  melody : σ
  reasoning_content : Option Str
  content : Option Str

/-- One iteration of the token loop of `extract_reasoning` (parser.py lines
104-125). -/
def reasonTokenStep {τ σ : Type} (write : σ → Str → σ × List Event)
    (decode : List τ → Str) (st : RLoop τ σ) (t : τ) : RLoop τ σ :=
  let buf := st.token_buf ++ [t]
  let token_str := decode buf
  if endsWithRep token_str then { st with token_buf := buf }
  else
    let m := (write st.melody token_str).1
    let out := (write st.melody token_str).2
    let rc := out.foldl textStep (st.reasoning_content, st.content)
    { token_buf := [], melody := m, reasoning_content := rc.1, content := rc.2 }

/-- Method `CohereCommand2ReasoningParser.extract_reasoning` (parser.py lines
88-126): builds a fresh sanitized oracle from `sanitizedOptions` via the
abstract constructor `mkFilter` (the `PyFilter(...)` call on lines 95-100),
tokenizes the output, runs the buffering token loop, and returns the
`(reasoning_content, content)` pair. -/
def extract_reasoning {τ σ : Type} (mkFilter : PyFilterOptions → σ)
    (write : σ → Str → σ × List Event) (encode : Str → List τ)
    (decode : List τ → Str) (model_output : Str) : Option Str × Option Str :=
  let melody := mkFilter sanitizedOptions
  let fin := (encode model_output).foldl (reasonTokenStep write decode)
    { token_buf := [], melody := melody, reasoning_content := none, content := none }
  (fin.reasoning_content, fin.content)

/-- The python exceptions this embedding can surface: a list index out of
range (`tool_calls[i]` with `i ≥ len(tool_calls)`). -/
inductive PyExn
  | indexError
deriving DecidableEq, Repr

/-- Expression `ToolCall(id=..., type="function", function=FunctionCall(name="",
arguments=""))` (parser.py lines 227-233). -/
def newToolCall (idStr : Str) : ToolCall :=
  { id := idStr, type := S "function", function := { name := [], arguments := [] } }

/-- Statement `tool_calls[i].function.name = nm` (parser.py lines 235-237); raises
IndexError when `i` is out of range. -/
def setRecName (tcs : List ToolCall) (i : Nat) (nm : Str) : Except PyExn (List ToolCall) :=
  match tcs[i]? with
  | some r => .ok (tcs.set i { r with function := { r.function with name := nm } })
  | none => .error .indexError

/-- Statement `tool_calls[i].function.arguments += args` (parser.py lines 238-240);
raises IndexError when `i` is out of range. -/
def appendRecArgs (tcs : List ToolCall) (i : Nat) (args : Str) : Except PyExn (List ToolCall) :=
  match tcs[i]? with
  | some r =>
    .ok (tcs.set i { r with function := { r.function with arguments := r.function.arguments ++ args } })
  | none => .error .indexError

/-- The per-fragment update of the tool-call list in `extract_tool_calls`
(parser.py lines 225-240): append a fresh record when the fragment bears a
non-empty id, overwrite the name at the fragment's index when it bears a
non-empty name, and always append the arguments delta at the fragment's
index. -/
def applyToolDelta (tcs : List ToolCall) (d : ToolCallDelta) : Except PyExn (List ToolCall) := do
  let tcs1 := if d.id = [] then tcs else tcs ++ [newToolCall d.id]
  let tcs2 ← if d.name = [] then pure tcs1 else setRecName tcs1 d.index d.name
  appendRecArgs tcs2 d.index d.raw_param_delta

/-- One iteration of the event loop of `extract_tool_calls` (parser.py
lines 221-240): text of either channel is appended to `content`, then the
tool-call fragment, if any, is applied to the list. -/
def toolEventStep (acc : List ToolCall × Option Str) (o : Event) :
    Except PyExn (List ToolCall × Option Str) := do
  let content :=
    match o.text with
    | none => acc.2
    | some t => some ((acc.2.getD []) ++ t)
  match o.tool_call_delta with
  | none => pure (acc.1, content)
  | some d => do
    let tcs ← applyToolDelta acc.1 d
    pure (tcs, content)

/-- Loop state of `extract_tool_calls` (parser.py lines 207-242). -/
structure TLoop (τ σ : Type) where
  token_buf : List τ
  melody : σ
  tool_calls : List ToolCall
  content : Option Str

/-- One iteration of the token loop of `extract_tool_calls` (parser.py
lines 211-242). -/
def toolTokenStep {τ σ : Type} (write : σ → Str → σ × List Event)
    (decode : List τ → Str) (st : TLoop τ σ) (t : τ) : Except PyExn (TLoop τ σ) :=
  let buf := st.token_buf ++ [t]
  let token_str := decode buf
  if endsWithRep token_str then pure { st with token_buf := buf }
  else do
    let m := (write st.melody token_str).1
    let out := (write st.melody token_str).2
    let r ← out.foldlM toolEventStep (st.tool_calls, st.content)
    pure { token_buf := [], melody := m, tool_calls := r.1, content := r.2 }

/-- The return value construction of `extract_tool_calls` (parser.py lines
244-248): `tools_called = len(tool_calls) > 0`. -/
def finalizeInfo (tool_calls : List ToolCall) (content : Option Str) :
    ExtractedToolCallInformation :=
  { tools_called := decide (0 < tool_calls.length), tool_calls := tool_calls,
    content := content }

/-- Method `CohereCommand2ToolParser.extract_tool_calls` (parser.py lines 202-248):
runs the buffering token loop over the encoded output, feeding released
fragments to the instance's long-lived oracle `melody` (`self.melody`,
line 220) and folding the events; python exceptions surface as `.error`. -/
def extract_tool_calls {τ σ : Type} (write : σ → Str → σ × List Event) (melody : σ)
    (encode : Str → List τ) (decode : List τ → Str) (model_output : Str) :
    Except PyExn ExtractedToolCallInformation := do
  let fin ← (encode model_output).foldlM (toolTokenStep write decode)
    { token_buf := [], melody := melody, tool_calls := [], content := none }
  pure (finalizeInfo fin.tool_calls fin.content)

/-- Method `CohereCommand2ToolParser.extract_tool_calls_streaming` (parser.py lines
172-200): collects the burst's tool-call fragments; returns a delta message
only when at least one fragment occurred (the Python method otherwise falls
through, returning `None`). -/
def extract_tool_calls_streaming {σ : Type} (write : σ → Str → σ × List Event)
    (melody : σ) (delta_text : Str) : σ × Option DeltaMessage :=
  let m := (write melody delta_text).1
  let out := (write melody delta_text).2
  let deltas := out.foldl
    (fun acc o =>
      match o.tool_call_delta with
      | none => acc
      | some d => acc ++ [mkDeltaToolCall d]) []
  if deltas = [] then (m, none) else (m, some { tool_calls := deltas })

/-- Append of optional accumulated text: `none` is "channel absent". -/
def optAppend (a b : Option Str) : Option Str :=
  match a, b with
  | none, b => b
  | some x, none => some x
  | some x, some y => some (x ++ y)

/-- Did a content-channel text event occur in the burst. -/
def contentTouched (E : List Event) : Bool :=
  E.any fun o => o.text.isSome && !o.is_reasoning

/-- Did a reasoning-channel text event occur in the burst. -/
def reasoningTouched (E : List Event) : Bool :=
  E.any fun o => o.text.isSome && o.is_reasoning

/-- In-order concatenation of the burst's content-channel texts. -/
def contentTexts (E : List Event) : Str :=
  joinS (E.filterMap fun o => if o.is_reasoning then none else o.text)

/-- In-order concatenation of the burst's reasoning-channel texts. -/
def reasoningTexts (E : List Event) : Str :=
  joinS (E.filterMap fun o => if o.is_reasoning then o.text else none)

/-- The content channel's accumulated value over a burst: absent when never
touched, otherwise the concatenated texts. -/
def contentSummary (E : List Event) : Option Str :=
  if contentTouched E then some (contentTexts E) else none

/-- The reasoning channel's accumulated value over a burst. -/
def reasoningSummary (E : List Event) : Option Str :=
  if reasoningTouched E then some (reasoningTexts E) else none

/-- Did any text event (of either channel) occur. -/
def anyText (E : List Event) : Bool := E.any fun o => o.text.isSome

/-- In-order concatenation of all text events' texts, both channels. -/
def allTexts (E : List Event) : Str := joinS (E.filterMap fun o => o.text)

/-- Accumulated single-channel value folding both channels together. -/
def textSummary (E : List Event) : Option Str :=
  if anyText E then some (allTexts E) else none

/-- The burst's tool-call fragments, mapped to deltas, in order. -/
def toolDeltasOf (E : List Event) : List DeltaToolCall :=
  E.filterMap fun o => o.tool_call_delta.map mkDeltaToolCall

/-- Did any tool-call fragment event occur. -/
def hasToolEvents (E : List Event) : Bool := E.any fun o => o.tool_call_delta.isSome

/-- Contribution of a single event to the content channel. -/
def contentOne (o : Event) : Option Str :=
  match o.text with
  | none => none
  | some t => if o.is_reasoning then none else some t

/-- Contribution of a single event to the reasoning channel. -/
def reasoningOne (o : Event) : Option Str :=
  match o.text with
  | none => none
  | some t => if o.is_reasoning then some t else none

/-- All events an oracle run emits over a list of clean fragments, with the
oracle state threaded call to call. -/
def oracleEvents {σ : Type} (write : σ → Str → σ × List Event) : σ → List Str → List Event
  | _, [] => []
  | m, f :: fs => (write m f).2 ++ oracleEvents write (write m f).1 fs

/-- The fragment-level core of `extract_reasoning`: feed each released
fragment to the oracle and fold the text events into the
`(reasoning_content, content)` accumulator. -/
def reasonFromFragments {σ : Type} (write : σ → Str → σ × List Event) :
    σ → Option Str × Option Str → List Str → σ × (Option Str × Option Str)
  | m, acc, [] => (m, acc)
  | m, acc, f :: fs =>
    reasonFromFragments write (write m f).1 ((write m f).2.foldl textStep acc) fs

/-- The fragment-level core of `extract_tool_calls`: feed each released
fragment to the oracle and fold the events into the tool-call list and
content accumulator, surfacing python exceptions. -/
def toolsFromFragments {σ : Type} (write : σ → Str → σ × List Event) :
    σ → List ToolCall × Option Str → List Str →
      Except PyExn (σ × (List ToolCall × Option Str))
  | m, acc, [] => .ok (m, acc)
  | m, acc, f :: fs => do
    let acc2 ← (write m f).2.foldlM toolEventStep acc
    toolsFromFragments write (write m f).1 acc2 fs

/-- Repeated streaming calls over a list of delta texts, threading the
parser instance's oracle state, collecting each call's outgoing delta. -/
def streamRun {σ : Type} (write : σ → Str → σ × List Event) :
    σ → List Str → σ × List (Option DeltaMessage)
  | st, [] => (st, [])
  | st, d :: ds =>
    let r := extract_reasoning_streaming write st d
    let rest := streamRun write r.1 ds
    (rest.1, r.2 :: rest.2)

/-- Content field of a possibly-absent delta message. -/
def contentOfDelta (m : Option DeltaMessage) : Option Str := m.bind fun g => g.content

/-- Reasoning field of a possibly-absent delta message. -/
def reasoningOfDelta (m : Option DeltaMessage) : Option Str :=
  m.bind fun g => g.reasoning_content

/-- Concatenation of the content fields of the produced deltas; absent
(`none`) when no delta carried a content field. -/
def catContents : List (Option DeltaMessage) → Option Str
  | [] => none
  | m :: ms => optAppend (contentOfDelta m) (catContents ms)

/-- Concatenation of the reasoning fields of the produced deltas. -/
def catReasonings : List (Option DeltaMessage) → Option Str
  | [] => none
  | m :: ms => optAppend (reasoningOfDelta m) (catReasonings ms)

/-- An oracle that echoes every fragment as a single content-channel text
event; used to instantiate the oracle contract concretely. -/
def echoWrite : Unit → Str → Unit × List Event :=
  fun _ d => ((), [{ text := some d, is_reasoning := false, tool_call_delta := none }])

/-- Trivial filter constructor for a stateless concrete oracle. -/
def unitFilter : PyFilterOptions → Unit := fun _ => ()

/-- A concrete tokenizer whose tokens are text chunks. -/
def encodeChunks : Str → List Str := fun s => [s]

/-- Erase all tool-call fragment events from an oracle's output, leaving its
state transitions and text events unchanged. -/
def stripToolEvents {σ : Type} (write : σ → Str → σ × List Event) :
    σ → Str → σ × List Event :=
  fun m s => ((write m s).1, (write m s).2.map fun o => { o with tool_call_delta := none })

/-- The net effect on the record at a fragment's own index of one fragment
application (parser.py lines 234-240): the name is overwritten when the
fragment bears a non-empty name, and the arguments delta is appended. -/
def applyOneRec (r : ToolCall) (d : ToolCallDelta) : ToolCall :=
  { r with function := { name := if d.name = [] then r.function.name else d.name,
                         arguments := r.function.arguments ++ d.raw_param_delta } }

/-- The record created by an id-bearing fragment after its own name and
arguments updates are applied to it. -/
def specApplyFresh (d : ToolCallDelta) : ToolCall :=
  { id := d.id, type := S "function",
    function := { name := d.name, arguments := d.raw_param_delta } }

/-- Well-formed fragment sequences relative to a current record count `n`:
an id-bearing fragment opens exactly the next index `n`, and an id-less
fragment targets an already-created index.  This is the premise under which
the list-position-indexed table of `extract_tool_calls` reconstructs
records correctly. -/
def wfFrags : Nat → List ToolCallDelta → Bool
  | _, [] => true
  | n, d :: ds =>
    if d.id = [] then decide (d.index < n) && wfFrags n ds
    else decide (d.index = n) && wfFrags (n + 1) ds

/-- Number of id-bearing fragments (= number of records created). -/
def countIds (ds : List ToolCallDelta) : Nat :=
  (ds.filter fun d => decide (¬ d.id = [])).length

/-- The fragments addressed to index `i`, in arrival order. -/
def fragsAt (i : Nat) (ds : List ToolCallDelta) : List ToolCallDelta :=
  ds.filter fun d => decide (d.index = i)

/-- The id of the first id-bearing fragment addressed to index `i`. -/
def firstIdAt (i : Nat) (ds : List ToolCallDelta) : Str :=
  match (fragsAt i ds).find? (fun d => decide (¬ d.id = [])) with
  | some d => d.id
  | none => []

/-- The last non-empty name supplied for index `i` (empty if none). -/
def lastNameAt (i : Nat) (ds : List ToolCallDelta) : Str :=
  (fragsAt i ds).foldl (fun acc d => if d.name = [] then acc else d.name) []

/-- The in-order concatenation of the argument deltas for index `i`. -/
def argsCatAt (i : Nat) (ds : List ToolCallDelta) : Str :=
  joinS ((fragsAt i ds).map fun d => d.raw_param_delta)

/-- Apply a sequence of fragments to one record. -/
def recApply (r : ToolCall) (fs : List ToolCallDelta) : ToolCall :=
  fs.foldl applyOneRec r

/-- The spec-level per-fragment update at an existing index. -/
def updRecAt (tcs : List ToolCall) (i : Nat) (d : ToolCallDelta) : List ToolCall :=
  match tcs[i]? with
  | some r => tcs.set i (applyOneRec r d)
  | none => tcs

/-- Total specification fold of the table building. -/
def specFold (tcs : List ToolCall) : List ToolCallDelta → List ToolCall
  | [] => tcs
  | d :: ds =>
    if d.id = [] then specFold (updRecAt tcs d.index d) ds
    else specFold (tcs ++ [specApplyFresh d]) ds

/-- Witness for `tool_table_reconstruction`: the spec's own scenario, an id
fragment for index 0 followed by a name fragment and two argument
fragments. -/
def dsW : List ToolCallDelta :=
  [{ id := S "c1", index := 0, name := [], raw_param_delta := [] },
   { id := [], index := 0, name := S "lookup", raw_param_delta := [] },
   { id := [], index := 0, name := [], raw_param_delta := S "x=1" },
   { id := [], index := 0, name := [], raw_param_delta := S ";y=2" }]

/-- Decidable rendering of C3's stated premise: the sequence is processed
in order and, for each index, an id-bearing fragment arrives no later than
the first name- or argument-bearing fragment for that index. -/
def idBeforeUseAux : List Nat → List ToolCallDelta → Bool
  | _, [] => true
  | seen, d :: ds =>
    let seen2 := if d.id = [] then seen else d.index :: seen
    (if d.name = [] ∧ d.raw_param_delta = [] then true else decide (d.index ∈ seen2))
      && idBeforeUseAux seen2 ds

/-- The claim's premise over a whole fragment sequence. -/
def idBeforeUse (ds : List ToolCallDelta) : Bool := idBeforeUseAux [] ds

/-- Two id-bearing fragments for the same index. -/
def dsDup : List ToolCallDelta :=
  [{ id := S "a", index := 0, name := [], raw_param_delta := [] },
   { id := S "b", index := 0, name := [], raw_param_delta := [] }]

/-- A two-state oracle whose emitted text depends on how many calls it has
already served: call counting makes shared state observable. -/
def cexOracle : Nat → Str → Nat × List Event :=
  fun n _ =>
    (n + 1, [{ text := some (if n = 0 then S "A" else S "B"), is_reasoning := false,
               tool_call_delta := none }])

/-- An oracle that echoes every fragment as a single reasoning-channel text
event: its text must nevertheless land in `extract_tool_calls`' content. -/
def reasonEcho : Unit → Str → Unit × List Event :=
  fun _ d => ((), [{ text := some d, is_reasoning := true, tool_call_delta := none }])

theorem joinS_nil : joinS [] = [] := rfl

theorem joinS_cons (x : Str) (l : List Str) : joinS (x :: l) = x ++ joinS l := rfl

theorem joinS_append (a b : List Str) : joinS (a ++ b) = joinS a ++ joinS b := by
  induction a with
  | nil => simp [joinS]
  | cons x xs ih => simp only [List.cons_append, joinS_cons, ih, List.append_assoc]

theorem mem_joinS_of_mem {c : Char} {frag : Str} {l : List Str}
    (hf : frag ∈ l) (hc : c ∈ frag) : c ∈ joinS l := by
  induction l with
  | nil => cases hf
  | cons x xs ih =>
    rw [joinS_cons, List.mem_append]
    rcases List.mem_cons.mp hf with h | h
    · exact Or.inl (h ▸ hc)
    · exact Or.inr (ih h)

theorem getLast?_append_right {x y : Str} (h : y ≠ []) :
    (x ++ y).getLast? = y.getLast? := by
  induction x with
  | nil => rfl
  | cons a x ih =>
    have hne : x ++ y ≠ [] := by
      intro hxy
      exact h (List.append_eq_nil.mp hxy).2
    obtain ⟨b, l, hbl⟩ := List.exists_cons_of_ne_nil hne
    calc ((a :: x) ++ y).getLast? = (a :: (x ++ y)).getLast? := rfl
      _ = (x ++ y).getLast? := by rw [hbl]; exact List.getLast?_cons_cons
      _ = y.getLast? := ih

theorem boundaryRun_decode {α : Type} (decode : List α → Str)
    (hnil : decode [] = [])
    (hadd : ∀ a b, endsWithRep (decode a) = false → decode (a ++ b) = decode a ++ decode b) :
    ∀ (ts : List α) (buf : List α),
      decode (buf ++ ts)
        = joinS (boundaryRun decode ts buf).1 ++ decode (boundaryRun decode ts buf).2 := by
  intro ts
  induction ts with
  | nil => intro buf; simp [boundaryRun, joinS, hnil]
  | cons t ts ih =>
    intro buf
    have hsplit : buf ++ t :: ts = (buf ++ [t]) ++ ts := by simp
    by_cases h : endsWithRep (decode (buf ++ [t])) = true
    · have hb : boundaryRun decode (t :: ts) buf = boundaryRun decode ts (buf ++ [t]) := by
        simp [boundaryRun, h]
      rw [hsplit, hb, ih (buf ++ [t])]
    · have hfalse : endsWithRep (decode (buf ++ [t])) = false := by
        exact Bool.not_eq_true _ ▸ (by simpa using h)
      have hb : boundaryRun decode (t :: ts) buf
          = (decode (buf ++ [t]) :: (boundaryRun decode ts []).1, (boundaryRun decode ts []).2) := by
        simp [boundaryRun, hfalse]
      rw [hsplit, hadd (buf ++ [t]) ts hfalse, hb]
      have := ih []
      rw [List.nil_append] at this
      rw [this]
      simp [joinS_cons, List.append_assoc]

theorem boundaryRun_trail {α : Type} (decode : List α → Str) :
    ∀ (ts : List α) (buf : List α),
      (buf ≠ [] → endsWithRep (decode buf) = true) →
      (boundaryRun decode ts buf).2 ≠ [] →
      endsWithRep (decode (boundaryRun decode ts buf).2) = true := by
  intro ts
  induction ts with
  | nil =>
    intro buf hbuf hne
    simp only [boundaryRun] at hne ⊢
    exact hbuf hne
  | cons t ts ih =>
    intro buf hbuf hne
    by_cases h : endsWithRep (decode (buf ++ [t])) = true
    · have hb : boundaryRun decode (t :: ts) buf = boundaryRun decode ts (buf ++ [t]) := by
        simp [boundaryRun, h]
      rw [hb] at hne ⊢
      exact ih (buf ++ [t]) (fun _ => h) hne
    · have hfalse : endsWithRep (decode (buf ++ [t])) = false := by
        exact Bool.not_eq_true _ ▸ (by simpa using h)
      have hb : boundaryRun decode (t :: ts) buf
          = (decode (buf ++ [t]) :: (boundaryRun decode ts []).1, (boundaryRun decode ts []).2) := by
        simp [boundaryRun, hfalse]
      rw [hb] at hne ⊢
      exact ih [] (fun hc => absurd rfl hc) hne

/-- C1 (amended): for every text `s` that does not itself end in the
replacement code point U+FFFD, and every tokenization `ts` of it (decoding
the whole sequence yields `s`, decoding no tokens yields the empty text, and
decoding distributes over a split whose left part decodes to a complete
fragment), pushing the tokens one at a time through the buffering loop and
concatenating all released fragments reproduces `s` exactly, and any
replacement marker occurring in a released fragment already occurs in `s`. -/
theorem boundary_buffer_roundtrip {α : Type} (decode : List α → Str) (s : Str) (ts : List α)
    (hnil : decode [] = [])
    (hadd : ∀ a b, endsWithRep (decode a) = false → decode (a ++ b) = decode a ++ decode b)
    (hts : decode ts = s)
    (hs : endsWithRep s = false) :
    joinS (boundaryRun decode ts []).1 = s ∧
    ∀ frag ∈ (boundaryRun decode ts []).1, replacementChar ∈ frag → replacementChar ∈ s := by
  have hkey : decode ts = joinS (boundaryRun decode ts []).1 ++ decode (boundaryRun decode ts []).2 := by
    have := boundaryRun_decode decode hnil hadd ts []
    rwa [List.nil_append] at this
  have htrail : (boundaryRun decode ts []).2 = [] := by
    by_contra hne
    have hrep : endsWithRep (decode (boundaryRun decode ts []).2) = true :=
      boundaryRun_trail decode ts [] (fun hc => absurd rfl hc) hne
    have hlast : (decode (boundaryRun decode ts []).2).getLast? = some replacementChar := by
      simpa [endsWithRep] using hrep
    have hdne : decode (boundaryRun decode ts []).2 ≠ [] := by
      intro hd
      rw [hd] at hlast
      cases hlast
    have : s.getLast? = some replacementChar := by
      rw [← hts, hkey, getLast?_append_right hdne, hlast]
    have : endsWithRep s = true := by simpa [endsWithRep] using this
    rw [this] at hs
    cases hs
  have hjoin : joinS (boundaryRun decode ts []).1 = s := by
    rw [← hts, hkey, htrail, hnil, List.append_nil]
  refine ⟨hjoin, ?_⟩
  intro frag hf hc
  rw [← hjoin]
  exact mem_joinS_of_mem hf hc

/-- C1 counterexample: the claim as stated fails for a text that itself ends
in U+FFFD.  Instantiate the tokenizer with chunk tokens and concatenation as
`decode` (which satisfies the tokenizer contract); for the text consisting of
the single code point U+FFFD, tokenized as one chunk, the buffering loop
withholds the fragment forever, so the concatenation of released fragments is
empty and does not reproduce the original text. -/
theorem boundary_buffer_roundtrip_cex :
    joinS [S "�"] = S "�" ∧
    (boundaryRun joinS [S "�"] []).1 = [] ∧
    joinS (boundaryRun joinS [S "�"] []).1 ≠ S "�" := by
  refine ⟨rfl, ?_, ?_⟩ <;> decide

/-- Witness for `boundary_buffer_roundtrip` at a concrete tokenizer (chunk
tokens, concatenation decode) and text `"abc"` split as `"ab"`, `"c"`. -/
theorem boundary_buffer_roundtrip_witness :
    joinS (boundaryRun joinS [S "ab", S "c"] []).1 = S "abc" ∧
    ∀ frag ∈ (boundaryRun joinS [S "ab", S "c"] []).1,
      replacementChar ∈ frag → replacementChar ∈ S "abc" :=
  boundary_buffer_roundtrip joinS (S "abc") [S "ab", S "c"] rfl
    (fun a b _ => joinS_append a b) (by decide) (by decide)

theorem optAppend_none_left (b : Option Str) : optAppend none b = b := rfl

theorem optAppend_none_right (a : Option Str) : optAppend a none = a := by
  cases a <;> rfl

theorem optAppend_assoc (a b c : Option Str) :
    optAppend (optAppend a b) c = optAppend a (optAppend b c) := by
  cases a <;> cases b <;> cases c <;> simp [optAppend, List.append_assoc]

theorem contentTexts_of_not_touched {E : List Event} (h : contentTouched E = false) :
    contentTexts E = [] := by
  induction E with
  | nil => rfl
  | cons o E ih =>
    rw [contentTouched, List.any_cons, Bool.or_eq_false_iff] at h
    have htail := ih h.2
    have hhead : (if o.is_reasoning then none else o.text) = (none : Option Str) := by
      rcases h1 : o.is_reasoning with _ | _
      · rcases h2 : o.text with _ | t
        · simp
        · exfalso
          have h3 := h.1
          rw [h1, h2] at h3
          simp at h3
      · simp [h1]
    rw [contentTexts, List.filterMap_cons, hhead, ← contentTexts, htail]

theorem reasoningTexts_of_not_touched {E : List Event} (h : reasoningTouched E = false) :
    reasoningTexts E = [] := by
  induction E with
  | nil => rfl
  | cons o E ih =>
    rw [reasoningTouched, List.any_cons, Bool.or_eq_false_iff] at h
    have htail := ih h.2
    have hhead : (if o.is_reasoning then o.text else none) = (none : Option Str) := by
      rcases h1 : o.is_reasoning with _ | _
      · simp [h1]
      · rcases h2 : o.text with _ | t
        · simp [h1]
        · exfalso
          have h3 := h.1
          rw [h1, h2] at h3
          simp at h3
    rw [reasoningTexts, List.filterMap_cons, hhead, ← reasoningTexts, htail]

theorem allTexts_of_not_any {E : List Event} (h : anyText E = false) :
    allTexts E = [] := by
  induction E with
  | nil => rfl
  | cons o E ih =>
    rw [anyText, List.any_cons, Bool.or_eq_false_iff] at h
    have htail := ih h.2
    have hhead : o.text = none := by
      rcases h2 : o.text with _ | t
      · rfl
      · exfalso
        have h3 := h.1
        rw [h2] at h3
        simp at h3
    rw [allTexts, List.filterMap_cons, hhead, ← allTexts, htail]

theorem contentSummary_cons (o : Event) (E : List Event) :
    contentSummary (o :: E) = optAppend (contentOne o) (contentSummary E) := by
  rcases ht : o.text with _ | t
  · have h1 : contentOne o = none := by simp [contentOne, ht]
    have h2 : contentTouched (o :: E) = contentTouched E := by
      simp [contentTouched, List.any_cons, ht]
    have h3 : contentTexts (o :: E) = contentTexts E := by
      rcases hr : o.is_reasoning with _ | _ <;>
        simp [contentTexts, List.filterMap_cons, ht, hr]
    rw [h1, optAppend_none_left, contentSummary, contentSummary, h2, h3]
  · rcases hr : o.is_reasoning with _ | _
    · have h1 : contentOne o = some t := by simp [contentOne, ht, hr]
      have h2 : contentTouched (o :: E) = true := by
        simp [contentTouched, List.any_cons, ht, hr]
      have h3 : contentTexts (o :: E) = t ++ contentTexts E := by
        simp [contentTexts, List.filterMap_cons, ht, hr, joinS_cons]
      rcases hE : contentTouched E with _ | _
      · have h4 : contentTexts E = [] := contentTexts_of_not_touched hE
        rw [h1, contentSummary, contentSummary, h2, h3, hE, h4]
        simp [optAppend]
      · rw [h1, contentSummary, contentSummary, h2, h3, hE]
        simp [optAppend]
    · have h1 : contentOne o = none := by simp [contentOne, ht, hr]
      have h2 : contentTouched (o :: E) = contentTouched E := by
        simp [contentTouched, List.any_cons, ht, hr]
      have h3 : contentTexts (o :: E) = contentTexts E := by
        simp [contentTexts, List.filterMap_cons, ht, hr]
      rw [h1, optAppend_none_left, contentSummary, contentSummary, h2, h3]

theorem reasoningSummary_cons (o : Event) (E : List Event) :
    reasoningSummary (o :: E) = optAppend (reasoningOne o) (reasoningSummary E) := by
  rcases ht : o.text with _ | t
  · have h1 : reasoningOne o = none := by simp [reasoningOne, ht]
    have h2 : reasoningTouched (o :: E) = reasoningTouched E := by
      simp [reasoningTouched, List.any_cons, ht]
    have h3 : reasoningTexts (o :: E) = reasoningTexts E := by
      rcases hr : o.is_reasoning with _ | _ <;>
        simp [reasoningTexts, List.filterMap_cons, ht, hr]
    rw [h1, optAppend_none_left, reasoningSummary, reasoningSummary, h2, h3]
  · rcases hr : o.is_reasoning with _ | _
    · have h1 : reasoningOne o = none := by simp [reasoningOne, ht, hr]
      have h2 : reasoningTouched (o :: E) = reasoningTouched E := by
        simp [reasoningTouched, List.any_cons, ht, hr]
      have h3 : reasoningTexts (o :: E) = reasoningTexts E := by
        simp [reasoningTexts, List.filterMap_cons, ht, hr]
      rw [h1, optAppend_none_left, reasoningSummary, reasoningSummary, h2, h3]
    · have h1 : reasoningOne o = some t := by simp [reasoningOne, ht, hr]
      have h2 : reasoningTouched (o :: E) = true := by
        simp [reasoningTouched, List.any_cons, ht, hr]
      have h3 : reasoningTexts (o :: E) = t ++ reasoningTexts E := by
        simp [reasoningTexts, List.filterMap_cons, ht, hr, joinS_cons]
      rcases hE : reasoningTouched E with _ | _
      · have h4 : reasoningTexts E = [] := reasoningTexts_of_not_touched hE
        rw [h1, reasoningSummary, reasoningSummary, h2, h3, hE, h4]
        simp [optAppend]
      · rw [h1, reasoningSummary, reasoningSummary, h2, h3, hE]
        simp [optAppend]

theorem textSummary_cons (o : Event) (E : List Event) :
    textSummary (o :: E) = optAppend o.text (textSummary E) := by
  rcases ht : o.text with _ | t
  · have h2 : anyText (o :: E) = anyText E := by
      simp [anyText, List.any_cons, ht]
    have h3 : allTexts (o :: E) = allTexts E := by
      simp [allTexts, List.filterMap_cons, ht]
    rw [optAppend_none_left, textSummary, textSummary, h2, h3]
  · have h2 : anyText (o :: E) = true := by
      simp [anyText, List.any_cons, ht]
    have h3 : allTexts (o :: E) = t ++ allTexts E := by
      simp [allTexts, List.filterMap_cons, ht, joinS_cons]
    rcases hE : anyText E with _ | _
    · have h4 : allTexts E = [] := allTexts_of_not_any hE
      rw [textSummary, textSummary, h2, h3, hE, h4]
      simp [optAppend]
    · rw [textSummary, textSummary, h2, h3, hE]
      simp [optAppend]

theorem contentSummary_append (E₁ E₂ : List Event) :
    contentSummary (E₁ ++ E₂) = optAppend (contentSummary E₁) (contentSummary E₂) := by
  induction E₁ with
  | nil => simp [contentSummary, contentTouched, contentTexts, optAppend_none_left]
  | cons o E ih =>
    rw [List.cons_append, contentSummary_cons, ih, contentSummary_cons, optAppend_assoc]

theorem reasoningSummary_append (E₁ E₂ : List Event) :
    reasoningSummary (E₁ ++ E₂) = optAppend (reasoningSummary E₁) (reasoningSummary E₂) := by
  induction E₁ with
  | nil => simp [reasoningSummary, reasoningTouched, reasoningTexts, optAppend_none_left]
  | cons o E ih =>
    rw [List.cons_append, reasoningSummary_cons, ih, reasoningSummary_cons, optAppend_assoc]

theorem textSummary_append (E₁ E₂ : List Event) :
    textSummary (E₁ ++ E₂) = optAppend (textSummary E₁) (textSummary E₂) := by
  induction E₁ with
  | nil => simp [textSummary, anyText, allTexts, optAppend_none_left]
  | cons o E ih =>
    rw [List.cons_append, textSummary_cons, ih, textSummary_cons, optAppend_assoc]

theorem toolDeltasOf_append (E₁ E₂ : List Event) :
    toolDeltasOf (E₁ ++ E₂) = toolDeltasOf E₁ ++ toolDeltasOf E₂ := by
  simp [toolDeltasOf, List.filterMap_append]

theorem textStep_eq (acc : Option Str × Option Str) (o : Event) :
    textStep acc o = (optAppend acc.1 (reasoningOne o), optAppend acc.2 (contentOne o)) := by
  rcases ht : o.text with _ | t <;> rcases hr : o.is_reasoning with _ | _ <;>
    rcases acc with ⟨r, c⟩ <;> rcases r with _ | r <;> rcases c with _ | c <;>
    simp [textStep, reasoningOne, contentOne, optAppend, ht, hr]

theorem textStep_foldl (E : List Event) :
    ∀ (r c : Option Str),
      E.foldl textStep (r, c)
        = (optAppend r (reasoningSummary E), optAppend c (contentSummary E)) := by
  induction E with
  | nil =>
    intro r c
    simp [reasoningSummary, contentSummary, reasoningTouched, contentTouched,
      optAppend_none_right]
  | cons o E ih =>
    intro r c
    rw [List.foldl_cons, textStep_eq, ih, reasoningSummary_cons, contentSummary_cons,
      optAppend_assoc, optAppend_assoc]

theorem aggStep_eq (st : AggState) (o : Event) :
    aggStep st o =
      { content := optAppend st.content (contentOne o),
        reasoning_content := optAppend st.reasoning_content (reasoningOne o),
        tool_calls := st.tool_calls ++ toolDeltasOf [o] } := by
  rcases ht : o.text with _ | t <;> rcases hr : o.is_reasoning with _ | _ <;>
    rcases hd : o.tool_call_delta with _ | d <;>
    rcases st with ⟨c, r, l⟩ <;> rcases c with _ | c <;> rcases r with _ | r <;>
    simp [aggStep, contentOne, reasoningOne, toolDeltasOf, optAppend, ht, hr, hd,
      List.filterMap_cons]

theorem aggStep_foldl (E : List Event) :
    ∀ (st : AggState),
      E.foldl aggStep st
        = { content := optAppend st.content (contentSummary E),
            reasoning_content := optAppend st.reasoning_content (reasoningSummary E),
            tool_calls := st.tool_calls ++ toolDeltasOf E } := by
  induction E with
  | nil =>
    intro st
    simp [contentSummary, reasoningSummary, contentTouched, reasoningTouched,
      toolDeltasOf, optAppend_none_right]
  | cons o E ih =>
    intro st
    rw [List.foldl_cons, aggStep_eq, ih]
    have hcons : toolDeltasOf (o :: E) = toolDeltasOf [o] ++ toolDeltasOf E := by
      simpa using toolDeltasOf_append [o] E
    simp only [contentSummary_cons, reasoningSummary_cons, hcons,
      optAppend_assoc, List.append_assoc]

theorem contentSummary_eq_none_iff (E : List Event) :
    contentSummary E = none ↔ contentTouched E = false := by
  rcases h : contentTouched E with _ | _ <;> simp [contentSummary, h]

theorem reasoningSummary_eq_none_iff (E : List Event) :
    reasoningSummary E = none ↔ reasoningTouched E = false := by
  rcases h : reasoningTouched E with _ | _ <;> simp [reasoningSummary, h]

/-- Characterization of one streaming aggregation call: the outgoing delta
of `extract_reasoning_streaming` is `none` exactly when the burst touched no
channel and carried no tool-call fragment; otherwise each channel field is
its summary (absent when untouched, else the in-order concatenation of that
channel's texts) and the tool-call list is the in-order image of the burst's
fragments. -/
theorem extract_reasoning_streaming_spec {σ : Type} (write : σ → Str → σ × List Event)
    (st : σ) (d : Str) :
    (extract_reasoning_streaming write st d).2 =
      (if contentTouched ((write st d).2) = false ∧ reasoningTouched ((write st d).2) = false
          ∧ toolDeltasOf ((write st d).2) = []
       then none
       else some { content := contentSummary ((write st d).2),
                   reasoning_content := reasoningSummary ((write st d).2),
                   tool_calls := toolDeltasOf ((write st d).2) }) := by
  rw [extract_reasoning_streaming]
  rw [aggStep_foldl]
  simp only [optAppend_none_left, List.nil_append]
  by_cases hc : contentTouched ((write st d).2) = false
  · by_cases hr : reasoningTouched ((write st d).2) = false
    · by_cases htl : toolDeltasOf ((write st d).2) = []
      · rw [if_pos ⟨(contentSummary_eq_none_iff _).mpr hc,
          (reasoningSummary_eq_none_iff _).mpr hr, htl⟩, if_pos ⟨hc, hr, htl⟩]
      · rw [if_neg (by
          intro h
          exact htl h.2.2), if_neg (by
          intro h
          exact htl h.2.2)]
    · rw [if_neg (by
        intro h
        exact hr ((reasoningSummary_eq_none_iff _).mp h.2.1)), if_neg (by
        intro h
        exact hr h.2.1)]
  · rw [if_neg (by
      intro h
      exact hc ((contentSummary_eq_none_iff _).mp h.1)), if_neg (by
      intro h
      exact hc h.1)]

theorem reason_loop_factor {τ σ : Type} (write : σ → Str → σ × List Event)
    (decode : List τ → Str) :
    ∀ (ts : List τ) (buf : List τ) (m : σ) (r c : Option Str),
      List.foldl (reasonTokenStep write decode) ⟨buf, m, r, c⟩ ts =
        ⟨(boundaryRun decode ts buf).2,
         (reasonFromFragments write m (r, c) (boundaryRun decode ts buf).1).1,
         (reasonFromFragments write m (r, c) (boundaryRun decode ts buf).1).2.1,
         (reasonFromFragments write m (r, c) (boundaryRun decode ts buf).1).2.2⟩ := by
  intro ts
  induction ts with
  | nil => intro buf m r c; simp [boundaryRun, reasonFromFragments]
  | cons t ts ih =>
    intro buf m r c
    rw [List.foldl_cons]
    by_cases h : endsWithRep (decode (buf ++ [t])) = true
    · have hstep : reasonTokenStep write decode ⟨buf, m, r, c⟩ t
          = ⟨buf ++ [t], m, r, c⟩ := by
        simp [reasonTokenStep, h]
      have hb : boundaryRun decode (t :: ts) buf = boundaryRun decode ts (buf ++ [t]) := by
        simp [boundaryRun, h]
      rw [hstep, hb, ih (buf ++ [t]) m r c]
    · have hfalse : endsWithRep (decode (buf ++ [t])) = false := by
        exact Bool.not_eq_true _ ▸ (by simpa using h)
      have hstep : reasonTokenStep write decode ⟨buf, m, r, c⟩ t
          = ⟨[], (write m (decode (buf ++ [t]))).1,
             ((write m (decode (buf ++ [t]))).2.foldl textStep (r, c)).1,
             ((write m (decode (buf ++ [t]))).2.foldl textStep (r, c)).2⟩ := by
        simp [reasonTokenStep, hfalse]
      have hb : boundaryRun decode (t :: ts) buf
          = (decode (buf ++ [t]) :: (boundaryRun decode ts []).1,
             (boundaryRun decode ts []).2) := by
        simp [boundaryRun, hfalse]
      rw [hstep, hb, ih [] ((write m (decode (buf ++ [t]))).1)
        ((write m (decode (buf ++ [t]))).2.foldl textStep (r, c)).1
        ((write m (decode (buf ++ [t]))).2.foldl textStep (r, c)).2]
      rfl

theorem tool_loop_factor {τ σ : Type} (write : σ → Str → σ × List Event)
    (decode : List τ → Str) :
    ∀ (ts : List τ) (buf : List τ) (m : σ) (tcs : List ToolCall) (c : Option Str),
      List.foldlM (toolTokenStep write decode) (⟨buf, m, tcs, c⟩ : TLoop τ σ) ts =
        (toolsFromFragments write m (tcs, c) (boundaryRun decode ts buf).1).map
          (fun p => ⟨(boundaryRun decode ts buf).2, p.1, p.2.1, p.2.2⟩) := by
  intro ts
  induction ts with
  | nil => intro buf m tcs c; rfl
  | cons t ts ih =>
    intro buf m tcs c
    rw [List.foldlM_cons]
    by_cases h : endsWithRep (decode (buf ++ [t])) = true
    · have hstep : toolTokenStep write decode ⟨buf, m, tcs, c⟩ t
          = pure ⟨buf ++ [t], m, tcs, c⟩ := by
        simp [toolTokenStep, h]
      have hb : boundaryRun decode (t :: ts) buf = boundaryRun decode ts (buf ++ [t]) := by
        simp [boundaryRun, h]
      rw [hstep, hb, pure_bind, ih (buf ++ [t]) m tcs c]
    · have hfalse : endsWithRep (decode (buf ++ [t])) = false := by
        exact Bool.not_eq_true _ ▸ (by simpa using h)
      have hb : boundaryRun decode (t :: ts) buf
          = (decode (buf ++ [t]) :: (boundaryRun decode ts []).1,
             (boundaryRun decode ts []).2) := by
        simp [boundaryRun, hfalse]
      rw [hb]
      rcases hE : (write m (decode (buf ++ [t]))).2.foldlM toolEventStep (tcs, c) with e | acc2
      · have hstep : toolTokenStep write decode ⟨buf, m, tcs, c⟩ t = .error e := by
          simp [toolTokenStep, hfalse, hE]
        have hfrag : toolsFromFragments write m (tcs, c)
            (decode (buf ++ [t]) :: (boundaryRun decode ts []).1) = .error e := by
          simp only [toolsFromFragments, hE]
          rfl
        rw [hstep, hfrag]
        rfl
      · have hstep : toolTokenStep write decode ⟨buf, m, tcs, c⟩ t
            = .ok ⟨[], (write m (decode (buf ++ [t]))).1, acc2.1, acc2.2⟩ := by
          simp [toolTokenStep, hfalse, hE]
        have hfrag : toolsFromFragments write m (tcs, c)
            (decode (buf ++ [t]) :: (boundaryRun decode ts []).1)
            = toolsFromFragments write ((write m (decode (buf ++ [t]))).1) acc2
                ((boundaryRun decode ts []).1) := by
          simp only [toolsFromFragments, hE]
          rfl
        rw [hstep, hfrag]
        have hbind : (Except.ok (⟨[], (write m (decode (buf ++ [t]))).1, acc2.1, acc2.2⟩ : TLoop τ σ)
            : Except PyExn (TLoop τ σ)) >>= (fun s => List.foldlM (toolTokenStep write decode) s ts)
            = List.foldlM (toolTokenStep write decode)
                (⟨[], (write m (decode (buf ++ [t]))).1, acc2.1, acc2.2⟩ : TLoop τ σ) ts := rfl
        rw [hbind, ih [] ((write m (decode (buf ++ [t]))).1) acc2.1 acc2.2]

theorem reasonFromFragments_acc {σ : Type} (write : σ → Str → σ × List Event) :
    ∀ (fs : List Str) (m : σ) (r c : Option Str),
      (reasonFromFragments write m (r, c) fs).2
        = (optAppend r (reasoningSummary (oracleEvents write m fs)),
           optAppend c (contentSummary (oracleEvents write m fs))) := by
  intro fs
  induction fs with
  | nil =>
    intro m r c
    simp [reasonFromFragments, oracleEvents, reasoningSummary, contentSummary,
      reasoningTouched, contentTouched, optAppend_none_right]
  | cons f fs ih =>
    intro m r c
    rw [reasonFromFragments, textStep_foldl]
    rw [ih ((write m f).1) (optAppend r (reasoningSummary (write m f).2))
      (optAppend c (contentSummary (write m f).2))]
    have hev : oracleEvents write m (f :: fs)
        = (write m f).2 ++ oracleEvents write (write m f).1 fs := rfl
    rw [hev, reasoningSummary_append, contentSummary_append, optAppend_assoc, optAppend_assoc]

/-- Characterization: `extract_reasoning` computed from the events of the sanitized oracle run
over the released fragments: each channel of the result is that channel's
summary (absent when never touched, else the concatenated texts). -/
theorem extract_reasoning_events {τ σ : Type} (mkFilter : PyFilterOptions → σ)
    (write : σ → Str → σ × List Event) (encode : Str → List τ)
    (decode : List τ → Str) (model_output : Str) :
    extract_reasoning mkFilter write encode decode model_output
      = (reasoningSummary (oracleEvents write (mkFilter sanitizedOptions)
           ((boundaryRun decode (encode model_output) []).1)),
         contentSummary (oracleEvents write (mkFilter sanitizedOptions)
           ((boundaryRun decode (encode model_output) []).1))) := by
  rw [extract_reasoning, reason_loop_factor write decode (encode model_output) []
    (mkFilter sanitizedOptions) none none]
  have := reasonFromFragments_acc write ((boundaryRun decode (encode model_output) []).1)
    (mkFilter sanitizedOptions) none none
  have h1 := congrArg Prod.fst this
  have h2 := congrArg Prod.snd this
  simp only [optAppend_none_left] at h1 h2
  simp [h1, h2]

theorem extract_reasoning_streaming_fst {σ : Type} (write : σ → Str → σ × List Event)
    (st : σ) (d : Str) :
    (extract_reasoning_streaming write st d).1 = (write st d).1 := by
  rw [extract_reasoning_streaming]
  split
  · rfl
  · rfl

theorem streaming_content_proj {σ : Type} (write : σ → Str → σ × List Event)
    (st : σ) (d : Str) :
    contentOfDelta (extract_reasoning_streaming write st d).2
      = contentSummary ((write st d).2) := by
  rw [extract_reasoning_streaming_spec]
  by_cases h : contentTouched ((write st d).2) = false
      ∧ reasoningTouched ((write st d).2) = false ∧ toolDeltasOf ((write st d).2) = []
  · rw [if_pos h]
    exact ((contentSummary_eq_none_iff _).mpr h.1).symm
  · rw [if_neg h]
    rfl

theorem streaming_reasoning_proj {σ : Type} (write : σ → Str → σ × List Event)
    (st : σ) (d : Str) :
    reasoningOfDelta (extract_reasoning_streaming write st d).2
      = reasoningSummary ((write st d).2) := by
  rw [extract_reasoning_streaming_spec]
  by_cases h : contentTouched ((write st d).2) = false
      ∧ reasoningTouched ((write st d).2) = false ∧ toolDeltasOf ((write st d).2) = []
  · rw [if_pos h]
    exact ((reasoningSummary_eq_none_iff _).mpr h.2.1).symm
  · rw [if_neg h]
    rfl

theorem streamRun_catContents {σ : Type} (write : σ → Str → σ × List Event) :
    ∀ (ds : List Str) (st : σ),
      catContents (streamRun write st ds).2 = contentSummary (oracleEvents write st ds) := by
  intro ds
  induction ds with
  | nil =>
    intro st
    simp [streamRun, catContents, oracleEvents, contentSummary, contentTouched]
  | cons d ds ih =>
    intro st
    rw [streamRun]
    rw [catContents, streaming_content_proj, extract_reasoning_streaming_fst,
      ih ((write st d).1)]
    have hev : oracleEvents write st (d :: ds)
        = (write st d).2 ++ oracleEvents write (write st d).1 ds := rfl
    rw [hev, contentSummary_append]

theorem streamRun_catReasonings {σ : Type} (write : σ → Str → σ × List Event) :
    ∀ (ds : List Str) (st : σ),
      catReasonings (streamRun write st ds).2
        = reasoningSummary (oracleEvents write st ds) := by
  intro ds
  induction ds with
  | nil =>
    intro st
    simp [streamRun, catReasonings, oracleEvents, reasoningSummary, reasoningTouched]
  | cons d ds ih =>
    intro st
    rw [streamRun]
    rw [catReasonings, streaming_reasoning_proj, extract_reasoning_streaming_fst,
      ih ((write st d).1)]
    have hev : oracleEvents write st (d :: ds)
        = (write st d).2 ++ oracleEvents write (write st d).1 ds := rfl
    rw [hev, reasoningSummary_append]

/-- C6: the aggregator contract of one `extract_reasoning_streaming` call.
A channel field is present in the outgoing delta exactly when a text event
of that channel occurred in the burst, in which case it is the in-order
concatenation of those events' texts (so an all-empty-text burst that
touches a channel yields an explicit empty string); every tool-call
fragment is mapped unchanged, in order, into the delta's tool-call list;
and when no channel was touched and no fragment occurred, `none` is
returned instead of an empty delta. -/
theorem streaming_delta_aggregation {σ : Type} (write : σ → Str → σ × List Event)
    (st : σ) (d : Str) :
    (extract_reasoning_streaming write st d).2 =
      (if contentTouched ((write st d).2) = false ∧ reasoningTouched ((write st d).2) = false
          ∧ toolDeltasOf ((write st d).2) = []
       then none
       else some { content := contentSummary ((write st d).2),
                   reasoning_content := reasoningSummary ((write st d).2),
                   tool_calls := toolDeltasOf ((write st d).2) }) :=
  extract_reasoning_streaming_spec write st d

/-- C2: streaming/full-extraction equivalence.  For a streaming pass (wire
oracle `write_w` from state `st`, delta texts `ds`) and a full-extraction
pass over `model_output` (fresh sanitized oracle via `mkFilter`), if the
oracle contract guarantees that the two passes' event streams carry no
tool-call events and equal per-channel summaries (same sequence, chunked
differently), then the concatenation of the `content` (resp.
`reasoning_content`) fields of all deltas equals the `content` (resp.
`reasoning`) component returned by `extract_reasoning`, with absent (`none`)
agreeing on both sides. -/
theorem stream_extract_equivalence {σ₁ σ₂ τ : Type}
    (write_w : σ₁ → Str → σ₁ × List Event) (st : σ₁) (ds : List Str)
    (mkFilter : PyFilterOptions → σ₂) (write_s : σ₂ → Str → σ₂ × List Event)
    (encode : Str → List τ) (decode : List τ → Str) (model_output : Str)
    (hnt : hasToolEvents (oracleEvents write_w st ds) = false)
    (hc : contentSummary (oracleEvents write_w st ds)
        = contentSummary (oracleEvents write_s (mkFilter sanitizedOptions)
            ((boundaryRun decode (encode model_output) []).1)))
    (hr : reasoningSummary (oracleEvents write_w st ds)
        = reasoningSummary (oracleEvents write_s (mkFilter sanitizedOptions)
            ((boundaryRun decode (encode model_output) []).1))) :
    catContents (streamRun write_w st ds).2
      = (extract_reasoning mkFilter write_s encode decode model_output).2 ∧
    catReasonings (streamRun write_w st ds).2
      = (extract_reasoning mkFilter write_s encode decode model_output).1 := by
  rw [extract_reasoning_events, streamRun_catContents, streamRun_catReasonings]
  exact ⟨hc, hr⟩

/-- Witness for `stream_extract_equivalence` at the echo oracle, one
streaming chunk `"hi"`, and full extraction over the same text. -/
theorem stream_extract_equivalence_witness :
    catContents (streamRun echoWrite () [S "hi"]).2
      = (extract_reasoning unitFilter echoWrite encodeChunks joinS (S "hi")).2 ∧
    catReasonings (streamRun echoWrite () [S "hi"]).2
      = (extract_reasoning unitFilter echoWrite encodeChunks joinS (S "hi")).1 :=
  stream_extract_equivalence echoWrite () [S "hi"] unitFilter echoWrite encodeChunks joinS
    (S "hi") (by decide) (by decide) (by decide)

theorem except_bind_pure {ε α β : Type} (x : Except ε α) (f : α → β) :
    (x >>= fun a => (pure (f a) : Except ε β)) = x.map f := by
  cases x <;> rfl

/-- C9: both full-extraction passes factor through the released fragments of
the boundary loop alone — the trailing pending run, retained because its
decode still ends in U+FFFD, is never flushed to the oracle and contributes
nothing to the returned result; there is no end-of-input flush. -/
theorem trailing_incomplete_run_dropped (σ₁ σ₂ τ : Type)
    (mkFilter : PyFilterOptions → σ₁) (write₁ : σ₁ → Str → σ₁ × List Event)
    (write₂ : σ₂ → Str → σ₂ × List Event) (st₂ : σ₂)
    (encode : Str → List τ) (decode : List τ → Str) (model_output : Str) :
    extract_reasoning mkFilter write₁ encode decode model_output
      = (reasonFromFragments write₁ (mkFilter sanitizedOptions) (none, none)
          ((boundaryRun decode (encode model_output) []).1)).2 ∧
    extract_tool_calls write₂ st₂ encode decode model_output
      = (toolsFromFragments write₂ st₂ ([], none)
          ((boundaryRun decode (encode model_output) []).1)).map
            (fun p => finalizeInfo p.2.1 p.2.2) := by
  constructor
  · rw [extract_reasoning, reason_loop_factor write₁ decode (encode model_output) []
      (mkFilter sanitizedOptions) none none]
  · have h0 : extract_tool_calls write₂ st₂ encode decode model_output
        = (List.foldlM (toolTokenStep write₂ decode)
            (⟨[], st₂, [], none⟩ : TLoop τ σ₂) (encode model_output))
          >>= (fun fin => pure (finalizeInfo fin.tool_calls fin.content)) := rfl
    rw [h0, tool_loop_factor write₂ decode (encode model_output) [] st₂ [] none]
    rcases htf : toolsFromFragments write₂ st₂ ([], none)
        ((boundaryRun decode (encode model_output) []).1) with e | p
    · rfl
    · rfl

theorem contentSummary_strip (E : List Event) :
    contentSummary (E.map fun o => { o with tool_call_delta := none })
      = contentSummary E := by
  induction E with
  | nil => rfl
  | cons o E ih =>
    rw [List.map_cons, contentSummary_cons, contentSummary_cons, ih]
    rfl

theorem reasoningSummary_strip (E : List Event) :
    reasoningSummary (E.map fun o => { o with tool_call_delta := none })
      = reasoningSummary E := by
  induction E with
  | nil => rfl
  | cons o E ih =>
    rw [List.map_cons, reasoningSummary_cons, reasoningSummary_cons, ih]
    rfl

theorem oracleEvents_strip {σ : Type} (write : σ → Str → σ × List Event) :
    ∀ (fs : List Str) (m : σ),
      oracleEvents (stripToolEvents write) m fs
        = (oracleEvents write m fs).map fun o => { o with tool_call_delta := none } := by
  intro fs
  induction fs with
  | nil => intro m; rfl
  | cons f fs ih =>
    intro m
    have h1 : oracleEvents (stripToolEvents write) m (f :: fs)
        = ((write m f).2.map fun o => { o with tool_call_delta := none })
          ++ oracleEvents (stripToolEvents write) ((write m f).1) fs := rfl
    have h2 : oracleEvents write m (f :: fs)
        = (write m f).2 ++ oracleEvents write ((write m f).1) fs := rfl
    rw [h1, h2, List.map_append, ih ((write m f).1)]

/-- C8: `extract_reasoning` builds its oracle from a freshly constructed
options value that removes exactly the tool-action markers
`<|START_ACTION|>` and `<|END_ACTION|>` from recognition, and any tool-call
fragment events the oracle emits have no effect on the returned
`(reasoning, content)` pair: erasing them from the oracle's output leaves
the result unchanged. -/
theorem reasoning_sanitized_oracle :
    sanitizedOptions
      = { grammar_cmd3 := true,
          removed_tokens := [S "<|START_ACTION|>", S "<|END_ACTION|>"] } ∧
    ∀ (σ τ : Type) (mkFilter : PyFilterOptions → σ) (write : σ → Str → σ × List Event)
      (encode : Str → List τ) (decode : List τ → Str) (model_output : Str),
      extract_reasoning mkFilter write encode decode model_output
        = extract_reasoning mkFilter (stripToolEvents write) encode decode model_output := by
  refine ⟨rfl, ?_⟩
  intro σ τ mkFilter write encode decode out
  rw [extract_reasoning_events, extract_reasoning_events, oracleEvents_strip,
    reasoningSummary_strip, contentSummary_strip]

theorem set_concat_length {α : Type} (l : List α) (x y : α) :
    (l ++ [x]).set l.length y = l ++ [y] := by
  induction l with
  | nil => rfl
  | cons a l ih =>
    have h1 : ((a :: l) ++ [x]).set (a :: l).length y
        = a :: ((l ++ [x]).set l.length y) := rfl
    rw [h1, ih]
    rfl

theorem set_append_left {α : Type} :
    ∀ (l1 l2 : List α) (i : Nat) (v : α), i < l1.length →
      (l1 ++ l2).set i v = l1.set i v ++ l2 := by
  intro l1
  induction l1 with
  | nil => intro l2 i v h; cases h
  | cons a l ih =>
    intro l2 i v h
    cases i with
    | zero => rfl
    | succ i =>
      have h2 : i < l.length := Nat.lt_of_succ_lt_succ h
      have h3 : ((a :: l) ++ l2).set (i + 1) v = a :: ((l ++ l2).set i v) := rfl
      rw [h3, ih l2 i v h2]
      rfl

theorem applyOneRec_new (x : Str) (d : ToolCallDelta) :
    applyOneRec (newToolCall x) d
      = { id := x, type := S "function",
          function := { name := d.name, arguments := d.raw_param_delta } } := by
  by_cases hn : d.name = []
  · simp [applyOneRec, newToolCall, hn]
  · simp [applyOneRec, newToolCall, hn]

theorem applyToolDelta_old (tcs : List ToolCall) (d : ToolCallDelta)
    (hid : d.id = []) (hix : d.index < tcs.length) :
    applyToolDelta tcs d = .ok (tcs.set d.index (applyOneRec tcs[d.index] d)) := by
  have hg : tcs[d.index]? = some tcs[d.index] := List.getElem?_eq_getElem hix
  by_cases hn : d.name = []
  · have h1 : applyToolDelta tcs d = appendRecArgs tcs d.index d.raw_param_delta := by
      simp [applyToolDelta, hid, hn]
    have h2 : appendRecArgs tcs d.index d.raw_param_delta
        = .ok (tcs.set d.index
            { tcs[d.index] with function :=
                { (tcs[d.index]).function with
                  arguments := (tcs[d.index]).function.arguments ++ d.raw_param_delta } }) := by
      unfold appendRecArgs
      rw [hg]
    rw [h1, h2]
    simp [applyOneRec, hn]
  · have h1 : applyToolDelta tcs d
        = (setRecName tcs d.index d.name) >>=
            (fun tcs2 => appendRecArgs tcs2 d.index d.raw_param_delta) := by
      simp [applyToolDelta, hid, hn]
    have h2 : setRecName tcs d.index d.name
        = .ok (tcs.set d.index
            { tcs[d.index] with function :=
                { (tcs[d.index]).function with name := d.name } }) := by
      unfold setRecName
      rw [hg]
    have hlen : d.index < (tcs.set d.index
        { tcs[d.index] with function :=
            { (tcs[d.index]).function with name := d.name } }).length := by
      simpa using hix
    have hg2 : (tcs.set d.index
        { tcs[d.index] with function :=
            { (tcs[d.index]).function with name := d.name } })[d.index]?
        = some { tcs[d.index] with function :=
            { (tcs[d.index]).function with name := d.name } } :=
      List.getElem?_set_self hix
    have h3 : appendRecArgs (tcs.set d.index
        { tcs[d.index] with function :=
            { (tcs[d.index]).function with name := d.name } }) d.index d.raw_param_delta
        = .ok ((tcs.set d.index
            { tcs[d.index] with function :=
                { (tcs[d.index]).function with name := d.name } }).set d.index
              { tcs[d.index] with function :=
                  { name := d.name,
                    arguments := (tcs[d.index]).function.arguments ++ d.raw_param_delta } }) := by
      unfold appendRecArgs
      rw [hg2]
    rw [h1, h2]
    have hb : (Except.ok (tcs.set d.index
        { tcs[d.index] with function :=
            { (tcs[d.index]).function with name := d.name } }) : Except PyExn (List ToolCall))
        >>= (fun tcs2 => appendRecArgs tcs2 d.index d.raw_param_delta)
        = appendRecArgs (tcs.set d.index
            { tcs[d.index] with function :=
                { (tcs[d.index]).function with name := d.name } }) d.index d.raw_param_delta := rfl
    rw [hb, h3, List.set_set]
    simp [applyOneRec, hn]

theorem applyToolDelta_fresh (tcs : List ToolCall) (d : ToolCallDelta)
    (hid : ¬ d.id = []) (hix : d.index = tcs.length) :
    applyToolDelta tcs d = .ok (tcs ++ [specApplyFresh d]) := by
  have hg : (tcs ++ [newToolCall d.id])[d.index]? = some (newToolCall d.id) := by
    rw [hix]
    exact List.getElem?_concat_length tcs (newToolCall d.id)
  by_cases hn : d.name = []
  · have h1 : applyToolDelta tcs d
        = appendRecArgs (tcs ++ [newToolCall d.id]) d.index d.raw_param_delta := by
      simp [applyToolDelta, hid, hn]
    have h2 : appendRecArgs (tcs ++ [newToolCall d.id]) d.index d.raw_param_delta
        = .ok ((tcs ++ [newToolCall d.id]).set d.index
            { newToolCall d.id with function :=
                { (newToolCall d.id).function with
                  arguments := (newToolCall d.id).function.arguments ++ d.raw_param_delta } }) := by
      unfold appendRecArgs
      rw [hg]
    rw [h1, h2, hix, set_concat_length]
    simp [specApplyFresh, newToolCall, hn]
  · have h1 : applyToolDelta tcs d
        = (setRecName (tcs ++ [newToolCall d.id]) d.index d.name) >>=
            (fun tcs2 => appendRecArgs tcs2 d.index d.raw_param_delta) := by
      simp [applyToolDelta, hid, hn]
    have h2 : setRecName (tcs ++ [newToolCall d.id]) d.index d.name
        = .ok ((tcs ++ [newToolCall d.id]).set d.index
            { newToolCall d.id with function :=
                { (newToolCall d.id).function with name := d.name } }) := by
      unfold setRecName
      rw [hg]
    have hset : (tcs ++ [newToolCall d.id]).set d.index
        { newToolCall d.id with function :=
            { (newToolCall d.id).function with name := d.name } }
        = tcs ++ [{ newToolCall d.id with function :=
            { (newToolCall d.id).function with name := d.name } }] := by
      rw [hix, set_concat_length]
    have hg2 : (tcs ++ [{ newToolCall d.id with function :=
        { (newToolCall d.id).function with name := d.name } }])[d.index]?
        = some { newToolCall d.id with function :=
            { (newToolCall d.id).function with name := d.name } } := by
      rw [hix]
      exact List.getElem?_concat_length tcs _
    have h3 : appendRecArgs (tcs ++ [{ newToolCall d.id with function :=
        { (newToolCall d.id).function with name := d.name } }]) d.index d.raw_param_delta
        = .ok ((tcs ++ [{ newToolCall d.id with function :=
            { (newToolCall d.id).function with name := d.name } }]).set d.index
              { newToolCall d.id with function :=
                  { name := d.name, arguments := [] ++ d.raw_param_delta } }) := by
      unfold appendRecArgs
      rw [hg2]
      rfl
    rw [h1, h2, hset]
    have hb : (Except.ok (tcs ++ [{ newToolCall d.id with function :=
        { (newToolCall d.id).function with name := d.name } }]) : Except PyExn (List ToolCall))
        >>= (fun tcs2 => appendRecArgs tcs2 d.index d.raw_param_delta)
        = appendRecArgs (tcs ++ [{ newToolCall d.id with function :=
            { (newToolCall d.id).function with name := d.name } }]) d.index d.raw_param_delta := rfl
    rw [hb, h3, hix, set_concat_length]
    simp [specApplyFresh, newToolCall]

/-- C4 (amended): applying a fragment with a non-empty id whose index
already holds a record (necessarily created under a different or equal id)
does not fail and raises no conflict condition: a fresh record
`{id, name:"", arguments:""}` is appended at the end of the list, while the
fragment's name/argument payload is applied to the existing record at the
fragment's index; the existing record is not overwritten by the new id. -/
theorem tool_index_conflict_appends (tcs : List ToolCall) (d : ToolCallDelta)
    (hid : ¬ d.id = []) (hix : d.index < tcs.length) :
    applyToolDelta tcs d
      = .ok ((tcs.set d.index (applyOneRec tcs[d.index] d)) ++ [newToolCall d.id]) := by
  have hg : (tcs ++ [newToolCall d.id])[d.index]? = some tcs[d.index] := by
    rw [List.getElem?_append_left hix]
    exact List.getElem?_eq_getElem hix
  by_cases hn : d.name = []
  · have h1 : applyToolDelta tcs d
        = appendRecArgs (tcs ++ [newToolCall d.id]) d.index d.raw_param_delta := by
      simp [applyToolDelta, hid, hn]
    have h2 : appendRecArgs (tcs ++ [newToolCall d.id]) d.index d.raw_param_delta
        = .ok ((tcs ++ [newToolCall d.id]).set d.index
            { tcs[d.index] with function :=
                { (tcs[d.index]).function with
                  arguments := (tcs[d.index]).function.arguments ++ d.raw_param_delta } }) := by
      unfold appendRecArgs
      rw [hg]
    rw [h1, h2, set_append_left tcs [newToolCall d.id] d.index _ hix]
    simp [applyOneRec, hn]
  · have h1 : applyToolDelta tcs d
        = (setRecName (tcs ++ [newToolCall d.id]) d.index d.name) >>=
            (fun tcs2 => appendRecArgs tcs2 d.index d.raw_param_delta) := by
      simp [applyToolDelta, hid, hn]
    have h2 : setRecName (tcs ++ [newToolCall d.id]) d.index d.name
        = .ok ((tcs ++ [newToolCall d.id]).set d.index
            { tcs[d.index] with function :=
                { (tcs[d.index]).function with name := d.name } }) := by
      unfold setRecName
      rw [hg]
    have hset : (tcs ++ [newToolCall d.id]).set d.index
        { tcs[d.index] with function :=
            { (tcs[d.index]).function with name := d.name } }
        = (tcs.set d.index
            { tcs[d.index] with function :=
                { (tcs[d.index]).function with name := d.name } }) ++ [newToolCall d.id] :=
      set_append_left tcs [newToolCall d.id] d.index _ hix
    have hsl : d.index < (tcs.set d.index
        { tcs[d.index] with function :=
            { (tcs[d.index]).function with name := d.name } }).length := by
      simpa using hix
    have hg2 : ((tcs.set d.index
        { tcs[d.index] with function :=
            { (tcs[d.index]).function with name := d.name } }) ++ [newToolCall d.id])[d.index]?
        = some { tcs[d.index] with function :=
            { (tcs[d.index]).function with name := d.name } } := by
      rw [List.getElem?_append_left hsl]
      exact List.getElem?_set_self hix
    have h3 : appendRecArgs ((tcs.set d.index
        { tcs[d.index] with function :=
            { (tcs[d.index]).function with name := d.name } }) ++ [newToolCall d.id])
          d.index d.raw_param_delta
        = .ok (((tcs.set d.index
            { tcs[d.index] with function :=
                { (tcs[d.index]).function with name := d.name } }) ++ [newToolCall d.id]).set
              d.index
              { tcs[d.index] with function :=
                  { name := d.name,
                    arguments := (tcs[d.index]).function.arguments ++ d.raw_param_delta } }) := by
      unfold appendRecArgs
      rw [hg2]
    rw [h1, h2, hset]
    have hb : (Except.ok ((tcs.set d.index
        { tcs[d.index] with function :=
            { (tcs[d.index]).function with name := d.name } }) ++ [newToolCall d.id])
          : Except PyExn (List ToolCall))
        >>= (fun tcs2 => appendRecArgs tcs2 d.index d.raw_param_delta)
        = appendRecArgs ((tcs.set d.index
            { tcs[d.index] with function :=
                { (tcs[d.index]).function with name := d.name } }) ++ [newToolCall d.id])
              d.index d.raw_param_delta := rfl
    rw [hb, h3, set_append_left _ [newToolCall d.id] d.index _ hsl, List.set_set]
    simp [applyOneRec, hn]

/-- C4 counterexample: a fragment `{id:"b", index:0}` applied while index 0
already holds a record with the different id `"a"` does not fail with any
conflict condition: the call succeeds, leaving the old record in place and
appending a second record. -/
theorem tool_index_conflict_cex :
    applyToolDelta [newToolCall (S "a")]
        { id := S "b", index := 0, name := [], raw_param_delta := [] }
      = .ok [newToolCall (S "a"), newToolCall (S "b")] := by
  rfl

/-- Witness for `tool_index_conflict_appends` at a concrete conflicting
fragment carrying a name and an arguments delta. -/
theorem tool_index_conflict_appends_witness :
    applyToolDelta [newToolCall (S "a")]
        { id := S "b", index := 0, name := S "f", raw_param_delta := S "x" }
      = .ok ([(([newToolCall (S "a")]).set 0
          (applyOneRec ([newToolCall (S "a")])[0]
            { id := S "b", index := 0, name := S "f", raw_param_delta := S "x" }))[0],
          newToolCall (S "b")] : List ToolCall) := by
  have h := tool_index_conflict_appends [newToolCall (S "a")]
    { id := S "b", index := 0, name := S "f", raw_param_delta := S "x" }
    (by decide) (by decide)
  exact h

/-- C5: applying a fragment whose id is empty at an index with no existing
record (in particular the very first fragment) fails — the orphan fragment
surfaces as a python IndexError rather than being silently dropped. -/
theorem tool_orphan_fragment (tcs : List ToolCall) (d : ToolCallDelta)
    (hid : d.id = []) (hix : tcs.length ≤ d.index) :
    applyToolDelta tcs d = .error .indexError := by
  have hg : tcs[d.index]? = none := List.getElem?_eq_none hix
  by_cases hn : d.name = []
  · have h1 : applyToolDelta tcs d = appendRecArgs tcs d.index d.raw_param_delta := by
      simp [applyToolDelta, hid, hn]
    have h2 : appendRecArgs tcs d.index d.raw_param_delta = .error .indexError := by
      unfold appendRecArgs
      rw [hg]
    rw [h1, h2]
  · have h1 : applyToolDelta tcs d
        = (setRecName tcs d.index d.name) >>=
            (fun tcs2 => appendRecArgs tcs2 d.index d.raw_param_delta) := by
      simp [applyToolDelta, hid, hn]
    have h2 : setRecName tcs d.index d.name = .error .indexError := by
      unfold setRecName
      rw [hg]
    rw [h1, h2]
    rfl

/-- Witness for `tool_orphan_fragment`: the spec's own scenario,
`{id:"", index:0, ...}` applied before any record exists. -/
theorem tool_orphan_fragment_witness :
    applyToolDelta []
        { id := [], index := 0, name := S "lookup", raw_param_delta := S "x" }
      = .error .indexError :=
  tool_orphan_fragment []
    { id := [], index := 0, name := S "lookup", raw_param_delta := S "x" }
    (by decide) (by decide)

theorem recApply_nil (r : ToolCall) : recApply r [] = r := rfl

theorem recApply_cons (r : ToolCall) (d : ToolCallDelta) (fs : List ToolCallDelta) :
    recApply r (d :: fs) = recApply (applyOneRec r d) fs := rfl

theorem recApply_fields :
    ∀ (fs : List ToolCallDelta) (i0 t0 n0 a0 : Str),
      recApply { id := i0, type := t0, function := { name := n0, arguments := a0 } } fs
        = { id := i0, type := t0,
            function :=
              { name := fs.foldl (fun acc d => if d.name = [] then acc else d.name) n0,
                arguments := a0 ++ joinS (fs.map fun d => d.raw_param_delta) } } := by
  intro fs
  induction fs with
  | nil => intro i0 t0 n0 a0; simp [recApply, joinS]
  | cons d fs ih =>
    intro i0 t0 n0 a0
    rw [recApply_cons]
    have h1 : applyOneRec { id := i0, type := t0, function := { name := n0, arguments := a0 } } d
        = { id := i0, type := t0,
            function := { name := if d.name = [] then n0 else d.name,
                          arguments := a0 ++ d.raw_param_delta } } := rfl
    rw [h1, ih]
    rw [List.foldl_cons, List.map_cons, joinS_cons, List.append_assoc]

theorem updRecAt_length (tcs : List ToolCall) (i : Nat) (d : ToolCallDelta) :
    (updRecAt tcs i d).length = tcs.length := by
  unfold updRecAt
  rcases h : tcs[i]? with _ | r
  · rfl
  · simp

theorem updRecAt_eq (tcs : List ToolCall) (i : Nat) (d : ToolCallDelta)
    (h : i < tcs.length) :
    updRecAt tcs i d = tcs.set i (applyOneRec tcs[i] d) := by
  unfold updRecAt
  rw [List.getElem?_eq_getElem h]

theorem wfFrags_cons_empty {n : Nat} {d : ToolCallDelta} {ds : List ToolCallDelta}
    (hid : d.id = []) (h : wfFrags n (d :: ds) = true) :
    d.index < n ∧ wfFrags n ds = true := by
  rw [wfFrags, if_pos hid, Bool.and_eq_true] at h
  exact ⟨of_decide_eq_true h.1, h.2⟩

theorem wfFrags_cons_id {n : Nat} {d : ToolCallDelta} {ds : List ToolCallDelta}
    (hid : ¬ d.id = []) (h : wfFrags n (d :: ds) = true) :
    d.index = n ∧ wfFrags (n + 1) ds = true := by
  rw [wfFrags, if_neg hid, Bool.and_eq_true] at h
  exact ⟨of_decide_eq_true h.1, h.2⟩

theorem countIds_cons_empty {d : ToolCallDelta} (ds : List ToolCallDelta)
    (hid : d.id = []) : countIds (d :: ds) = countIds ds := by
  simp [countIds, List.filter_cons, hid]

theorem countIds_cons_id {d : ToolCallDelta} (ds : List ToolCallDelta)
    (hid : ¬ d.id = []) : countIds (d :: ds) = countIds ds + 1 := by
  simp [countIds, List.filter_cons, hid]

theorem fragsAt_cons_eq {i : Nat} {d : ToolCallDelta} (ds : List ToolCallDelta)
    (h : d.index = i) : fragsAt i (d :: ds) = d :: fragsAt i ds := by
  simp [fragsAt, List.filter_cons, h]

theorem fragsAt_cons_ne {i : Nat} {d : ToolCallDelta} (ds : List ToolCallDelta)
    (h : ¬ d.index = i) : fragsAt i (d :: ds) = fragsAt i ds := by
  simp [fragsAt, List.filter_cons, h]

theorem firstIdAt_cons_ne {i : Nat} {d : ToolCallDelta} (ds : List ToolCallDelta)
    (h : ¬ d.index = i) : firstIdAt i (d :: ds) = firstIdAt i ds := by
  unfold firstIdAt
  rw [fragsAt_cons_ne ds h]

theorem firstIdAt_head_id {i : Nat} {d : ToolCallDelta} (ds : List ToolCallDelta)
    (h : d.index = i) (hid : ¬ d.id = []) : firstIdAt i (d :: ds) = d.id := by
  unfold firstIdAt
  rw [fragsAt_cons_eq ds h]
  have hfind : List.find? (fun e => decide (¬ e.id = [])) (d :: fragsAt i ds) = some d :=
    List.find?_cons_of_pos _ (decide_eq_true hid)
  rw [hfind]

theorem specFold_cons_empty (tcs : List ToolCall) {d : ToolCallDelta}
    (ds : List ToolCallDelta) (hid : d.id = []) :
    specFold tcs (d :: ds) = specFold (updRecAt tcs d.index d) ds := by
  rw [specFold, if_pos hid]

theorem specFold_cons_id (tcs : List ToolCall) {d : ToolCallDelta}
    (ds : List ToolCallDelta) (hid : ¬ d.id = []) :
    specFold tcs (d :: ds) = specFold (tcs ++ [specApplyFresh d]) ds := by
  rw [specFold, if_neg hid]

theorem specFold_length :
    ∀ (ds : List ToolCallDelta) (tcs : List ToolCall),
      (specFold tcs ds).length = tcs.length + countIds ds := by
  intro ds
  induction ds with
  | nil => intro tcs; simp [specFold, countIds]
  | cons d ds ih =>
    intro tcs
    by_cases hid : d.id = []
    · rw [specFold_cons_empty tcs ds hid, ih, updRecAt_length, countIds_cons_empty ds hid]
    · rw [specFold_cons_id tcs ds hid, ih, countIds_cons_id ds hid]
      simp
      omega

theorem foldlM_applyToolDelta_ok :
    ∀ (ds : List ToolCallDelta) (tcs : List ToolCall), wfFrags tcs.length ds = true →
      List.foldlM applyToolDelta tcs ds = .ok (specFold tcs ds) := by
  intro ds
  induction ds with
  | nil => intro tcs h; rfl
  | cons d ds ih =>
    intro tcs h
    rw [List.foldlM_cons]
    by_cases hid : d.id = []
    · obtain ⟨hix, h2⟩ := wfFrags_cons_empty hid h
      rw [applyToolDelta_old tcs d hid hix]
      have hb : (Except.ok (tcs.set d.index (applyOneRec tcs[d.index] d))
            : Except PyExn (List ToolCall))
          >>= (fun s => List.foldlM applyToolDelta s ds)
          = List.foldlM applyToolDelta (tcs.set d.index (applyOneRec tcs[d.index] d)) ds := rfl
      rw [hb, ← updRecAt_eq tcs d.index d hix,
        ih (updRecAt tcs d.index d) (by rw [updRecAt_length]; exact h2),
        specFold_cons_empty tcs ds hid]
    · obtain ⟨hix, h2⟩ := wfFrags_cons_id hid h
      rw [applyToolDelta_fresh tcs d hid hix]
      have hb : (Except.ok (tcs ++ [specApplyFresh d]) : Except PyExn (List ToolCall))
          >>= (fun s => List.foldlM applyToolDelta s ds)
          = List.foldlM applyToolDelta (tcs ++ [specApplyFresh d]) ds := rfl
      rw [hb, ih (tcs ++ [specApplyFresh d]) (by simpa using h2),
        specFold_cons_id tcs ds hid]

theorem wfFrags_index_bound :
    ∀ (ds : List ToolCallDelta) (n : Nat), wfFrags n ds = true →
      ∀ d ∈ ds, d.index < n + countIds ds := by
  intro ds
  induction ds with
  | nil => intro n h d hd; cases hd
  | cons e ds ih =>
    intro n h d hd
    by_cases hid : e.id = []
    · obtain ⟨hix, h2⟩ := wfFrags_cons_empty hid h
      rw [countIds_cons_empty ds hid]
      rcases List.mem_cons.mp hd with hde | hd2
      · rw [hde]
        omega
      · exact ih n h2 d hd2
    · obtain ⟨hix, h2⟩ := wfFrags_cons_id hid h
      rw [countIds_cons_id ds hid]
      rcases List.mem_cons.mp hd with hde | hd2
      · rw [hde]
        omega
      · have := ih (n + 1) h2 d hd2
        omega

theorem specFold_get_old :
    ∀ (ds : List ToolCallDelta) (tcs : List ToolCall), wfFrags tcs.length ds = true →
      ∀ (i : Nat) (hi : i < tcs.length),
        (specFold tcs ds)[i]? = some (recApply tcs[i] (fragsAt i ds)) := by
  intro ds
  induction ds with
  | nil =>
    intro tcs h i hi
    have hs : specFold tcs [] = tcs := rfl
    rw [hs, List.getElem?_eq_getElem hi]
    rfl
  | cons d ds ih =>
    intro tcs h i hi
    by_cases hid : d.id = []
    · obtain ⟨hix, h2⟩ := wfFrags_cons_empty hid h
      rw [specFold_cons_empty tcs ds hid, updRecAt_eq tcs d.index d hix]
      have hi2 : i < (tcs.set d.index (applyOneRec tcs[d.index] d)).length := by
        simpa using hi
      rw [ih (tcs.set d.index (applyOneRec tcs[d.index] d)) (by simpa using h2) i hi2]
      by_cases hji : d.index = i
      · subst hji
        have hv : (tcs.set d.index (applyOneRec tcs[d.index] d))[d.index]
            = applyOneRec tcs[d.index] d := List.getElem_set_self hi2
        rw [hv, fragsAt_cons_eq ds rfl, recApply_cons]
      · have hv : (tcs.set d.index (applyOneRec tcs[d.index] d))[i] = tcs[i] :=
          List.getElem_set_ne hji hi2
        rw [hv, fragsAt_cons_ne ds hji]
    · obtain ⟨hix, h2⟩ := wfFrags_cons_id hid h
      rw [specFold_cons_id tcs ds hid]
      have hi2 : i < (tcs ++ [specApplyFresh d]).length := by
        rw [List.length_append]
        omega
      rw [ih (tcs ++ [specApplyFresh d]) (by simpa using h2) i hi2]
      have hv : (tcs ++ [specApplyFresh d])[i] = tcs[i] := by
        rw [List.getElem_append_left]
      have hne : ¬ d.index = i := by omega
      rw [hv, fragsAt_cons_ne ds hne]

theorem getElem_concat_length {α : Type} (l : List α) (x : α)
    (h : l.length < (l ++ [x]).length) : (l ++ [x])[l.length] = x := by
  have h1 : (l ++ [x])[l.length]? = some x := List.getElem?_concat_length l x
  have h2 : (l ++ [x])[l.length]? = some ((l ++ [x])[l.length]) :=
    List.getElem?_eq_getElem h
  rw [h1] at h2
  exact (Option.some_inj.mp h2).symm

theorem specFold_get_new :
    ∀ (ds : List ToolCallDelta) (tcs : List ToolCall), wfFrags tcs.length ds = true →
      ∀ i : Nat, tcs.length ≤ i → i < tcs.length + countIds ds →
        (specFold tcs ds)[i]?
          = some (recApply (newToolCall (firstIdAt i ds)) (fragsAt i ds)) := by
  intro ds
  induction ds with
  | nil =>
    intro tcs h i hlo hhi
    rw [countIds] at hhi
    simp only [List.filter_nil, List.length_nil] at hhi
    omega
  | cons d ds ih =>
    intro tcs h i hlo hhi
    by_cases hid : d.id = []
    · obtain ⟨hix, h2⟩ := wfFrags_cons_empty hid h
      rw [specFold_cons_empty tcs ds hid, updRecAt_eq tcs d.index d hix]
      have hne : ¬ d.index = i := by omega
      rw [countIds_cons_empty ds hid] at hhi
      have hres := ih (tcs.set d.index (applyOneRec tcs[d.index] d)) (by simpa using h2) i
        (by simpa using hlo) (by simpa using hhi)
      rw [hres, fragsAt_cons_ne ds hne, firstIdAt_cons_ne ds hne]
    · obtain ⟨hix, h2⟩ := wfFrags_cons_id hid h
      rw [specFold_cons_id tcs ds hid]
      have hlen2 : (tcs ++ [specApplyFresh d]).length = tcs.length + 1 := by
        simp
      by_cases hieq : i = tcs.length
      · have hi2 : i < (tcs ++ [specApplyFresh d]).length := by omega
        rw [specFold_get_old ds (tcs ++ [specApplyFresh d]) (by simpa using h2) i hi2]
        have hv : (tcs ++ [specApplyFresh d])[i] = specApplyFresh d := by
          subst hieq
          exact getElem_concat_length tcs (specApplyFresh d) hi2
        have hdi : d.index = i := by omega
        rw [hv, fragsAt_cons_eq ds hdi, firstIdAt_head_id ds hdi hid, recApply_cons,
          applyOneRec_new]
        rfl
      · have hlo2 : (tcs ++ [specApplyFresh d]).length ≤ i := by omega
        have hhi2 : i < (tcs ++ [specApplyFresh d]).length + countIds ds := by
          rw [countIds_cons_id ds hid] at hhi
          omega
        have hres := ih (tcs ++ [specApplyFresh d]) (by simpa using h2) i hlo2 hhi2
        have hne : ¬ d.index = i := by omega
        rw [hres, fragsAt_cons_ne ds hne, firstIdAt_cons_ne ds hne]

/-- C3 (amended): for every fragment sequence in which each id-bearing
fragment opens exactly the next consecutive index (so ids arrive in index
order, one per index) and every id-less fragment targets an
already-created index, the fold of `extract_tool_calls`'s per-fragment
update succeeds and yields exactly one record per distinct index, ordered
by ascending index (record `i` sits at list position `i`), with each
record's id from its first id-bearing fragment, name the last non-empty
name supplied for that index, arguments the in-order concatenation of that
index's argument deltas, and the result's `tools_called` flag equal to
`count > 0`. -/
theorem tool_table_reconstruction (ds : List ToolCallDelta)
    (h : wfFrags 0 ds = true) :
    ∃ tcs : List ToolCall,
      List.foldlM applyToolDelta ([] : List ToolCall) ds = Except.ok tcs ∧
      tcs.length = countIds ds ∧
      (∀ d ∈ ds, d.index < tcs.length) ∧
      (∀ i : Nat, i < tcs.length →
        tcs[i]? = some { id := firstIdAt i ds, type := S "function",
                         function := { name := lastNameAt i ds,
                                       arguments := argsCatAt i ds } }) ∧
      (finalizeInfo tcs none).tools_called = decide (0 < countIds ds) := by
  have hwf : wfFrags (List.length ([] : List ToolCall)) ds = true := h
  refine ⟨specFold [] ds, foldlM_applyToolDelta_ok ds [] hwf, ?_, ?_, ?_, ?_⟩
  · rw [specFold_length ds []]
    simp
  · intro d hd
    rw [specFold_length ds []]
    have := wfFrags_index_bound ds 0 h d hd
    simpa using this
  · intro i hi
    have hi1 : i < List.length ([] : List ToolCall) + countIds ds := by
      rw [specFold_length ds []] at hi
      simpa using hi
    rw [specFold_get_new ds [] hwf i (Nat.zero_le i) hi1]
    have hnew : newToolCall (firstIdAt i ds)
        = { id := firstIdAt i ds, type := S "function",
            function := { name := [], arguments := [] } } := rfl
    rw [hnew, recApply_fields]
    simp [lastNameAt, argsCatAt]
  · have : (specFold [] ds).length = countIds ds := by
      rw [specFold_length ds []]
      simp
    simp [finalizeInfo, this]

theorem tool_table_reconstruction_witness :
    ∃ tcs : List ToolCall,
      List.foldlM applyToolDelta ([] : List ToolCall) dsW = Except.ok tcs ∧
      tcs.length = countIds dsW ∧
      (∀ d ∈ dsW, d.index < tcs.length) ∧
      (∀ i : Nat, i < tcs.length →
        tcs[i]? = some { id := firstIdAt i dsW, type := S "function",
                         function := { name := lastNameAt i dsW,
                                       arguments := argsCatAt i dsW } }) ∧
      (finalizeInfo tcs none).tools_called = decide (0 < countIds dsW) :=
  tool_table_reconstruction dsW (by decide)

/-- C3 counterexample: the claim as stated is false.  The sequence `dsDup`
satisfies the claim's premise (for each index, an id-bearing fragment
arrives before any name- or argument-bearing fragment), yet the fold
produces two records although the sequence has exactly one distinct index,
contradicting "exactly one record per distinct index". -/
theorem tool_table_reconstruction_cex :
    idBeforeUse dsDup = true ∧
    List.foldlM applyToolDelta ([] : List ToolCall) dsDup
      = Except.ok [newToolCall (S "a"), newToolCall (S "b")] ∧
    (dsDup.map fun d => d.index).dedup.length = 1 ∧
    ([newToolCall (S "a"), newToolCall (S "b")] : List ToolCall).length ≠ 1 :=
  ⟨by decide, by rfl, by decide, by decide⟩

/-- C7 counterexample: the claim as stated is false.  `extract_tool_calls`
feeds `self.melody`, the instance's long-lived oracle (parser.py line 220),
not a fresh one: with the call-counting oracle, a parser instance that
first served one `extract_tool_calls_streaming` call returns a different
`extract_tool_calls` result on the same `model_output` than a fresh
instance. -/
theorem toolcalls_pass_independence_cex :
    extract_tool_calls cexOracle 0 encodeChunks joinS (S "x")
      = Except.ok { tools_called := false, tool_calls := [], content := some (S "A") } ∧
    extract_tool_calls cexOracle
        ((extract_tool_calls_streaming cexOracle 0 (S "y")).1) encodeChunks joinS (S "x")
      = Except.ok { tools_called := false, tool_calls := [], content := some (S "B") } ∧
    (some (S "A") : Option Str) ≠ some (S "B") :=
  ⟨rfl, rfl, by decide⟩

/-- C7 (amended): `extract_tool_calls` runs over a per-call fresh token
buffer but the instance's shared long-lived oracle, so prior streaming
calls on the same instance influence its result exactly through the
advanced oracle state: running any sequence of
`extract_tool_calls_streaming` calls first is the same as starting
`extract_tool_calls` from the correspondingly advanced oracle state (and
two instances agree whenever their oracle states at call time agree, e.g.
when both are fresh). -/
theorem toolcalls_shared_oracle_state {σ τ : Type} (write : σ → Str → σ × List Event)
    (st : σ) (ds : List Str) (encode : Str → List τ) (decode : List τ → Str)
    (model_output : Str) :
    extract_tool_calls write
        (ds.foldl (fun s d => (extract_tool_calls_streaming write s d).1) st)
        encode decode model_output
      = extract_tool_calls write (ds.foldl (fun s d => (write s d).1) st)
        encode decode model_output := by
  have hfold : ∀ (ds : List Str) (st : σ),
      ds.foldl (fun s d => (extract_tool_calls_streaming write s d).1) st
        = ds.foldl (fun s d => (write s d).1) st := by
    intro ds
    induction ds with
    | nil => intro st; rfl
    | cons d ds ih =>
      intro st
      rw [List.foldl_cons, List.foldl_cons]
      have hst : (extract_tool_calls_streaming write st d).1 = (write st d).1 := by
        rw [extract_tool_calls_streaming]
        split
        · rfl
        · rfl
      rw [hst]
      exact ih ((write st d).1)
  rw [hfold]

theorem toolEventStep_snd (acc : List ToolCall × Option Str) (o : Event)
    (acc2 : List ToolCall × Option Str) (h : toolEventStep acc o = .ok acc2) :
    acc2.2 = optAppend acc.2 o.text := by
  have hc : (match o.text with
      | none => acc.2
      | some t => some ((acc.2.getD []) ++ t)) = optAppend acc.2 o.text := by
    rcases ht : o.text with _ | t <;> rcases hc : acc.2 with _ | c <;>
      simp [optAppend, Option.getD]
  rcases hd : o.tool_call_delta with _ | d
  · have h2 : toolEventStep acc o
        = .ok (acc.1, match o.text with
            | none => acc.2
            | some t => some ((acc.2.getD []) ++ t)) := by
      unfold toolEventStep
      rw [hd]
      rfl
    rw [h2] at h
    have h3 := (Except.ok.injEq _ _).mp h
    rw [← h3, hc]
  · rcases ha : applyToolDelta acc.1 d with e | tcs
    · have h2 : toolEventStep acc o = .error e := by
        unfold toolEventStep
        rw [hd]
        show (do
            let tcs ← applyToolDelta acc.1 d
            (pure (tcs, match o.text with
                | none => acc.2
                | some t => some ((acc.2.getD []) ++ t))
              : Except PyExn (List ToolCall × Option Str)))
          = Except.error e
        rw [ha]
        rfl
      rw [h2] at h
      cases h
    · have h2 : toolEventStep acc o
          = .ok (tcs, match o.text with
              | none => acc.2
              | some t => some ((acc.2.getD []) ++ t)) := by
        unfold toolEventStep
        rw [hd]
        show (do
            let tcs ← applyToolDelta acc.1 d
            (pure (tcs, match o.text with
                | none => acc.2
                | some t => some ((acc.2.getD []) ++ t))
              : Except PyExn (List ToolCall × Option Str)))
          = Except.ok (tcs, match o.text with
              | none => acc.2
              | some t => some ((acc.2.getD []) ++ t))
        rw [ha]
        rfl
      rw [h2] at h
      have h3 := (Except.ok.injEq _ _).mp h
      rw [← h3, hc]

theorem foldlM_toolEventStep_content :
    ∀ (E : List Event) (acc acc2 : List ToolCall × Option Str),
      List.foldlM toolEventStep acc E = .ok acc2 →
      acc2.2 = optAppend acc.2 (textSummary E) := by
  intro E
  induction E with
  | nil =>
    intro acc acc2 h
    have h2 : (Except.ok acc : Except PyExn (List ToolCall × Option Str)) = .ok acc2 := h
    have h3 := (Except.ok.injEq _ _).mp h2
    rw [← h3]
    have hts : textSummary [] = none := rfl
    rw [hts, optAppend_none_right]
  | cons o E ih =>
    intro acc acc2 h
    rw [List.foldlM_cons] at h
    rcases hstep : toolEventStep acc o with e | acc1
    · rw [hstep] at h
      have h2 : (Except.error e : Except PyExn (List ToolCall × Option Str)) = .ok acc2 := h
      cases h2
    · rw [hstep] at h
      have h2 : List.foldlM toolEventStep acc1 E = .ok acc2 := h
      rw [ih acc1 acc2 h2, toolEventStep_snd acc o acc1 hstep, textSummary_cons,
        optAppend_assoc]

theorem toolsFromFragments_content {σ : Type} (write : σ → Str → σ × List Event) :
    ∀ (fs : List Str) (m : σ) (acc : List ToolCall × Option Str)
      (res : σ × (List ToolCall × Option Str)),
      toolsFromFragments write m acc fs = .ok res →
      res.2.2 = optAppend acc.2 (textSummary (oracleEvents write m fs)) := by
  intro fs
  induction fs with
  | nil =>
    intro m acc res h
    have h2 : (Except.ok (m, acc) : Except PyExn (σ × (List ToolCall × Option Str)))
        = .ok res := h
    have h3 := (Except.ok.injEq _ _).mp h2
    rw [← h3]
    have hts : textSummary (oracleEvents write m []) = none := rfl
    rw [hts, optAppend_none_right]
  | cons f fs ih =>
    intro m acc res h
    rcases hE : (write m f).2.foldlM toolEventStep acc with e | acc2
    · have h2 : toolsFromFragments write m acc (f :: fs) = .error e := by
        simp only [toolsFromFragments, hE]
        rfl
      rw [h2] at h
      cases h
    · have h2 : toolsFromFragments write m acc (f :: fs)
          = toolsFromFragments write ((write m f).1) acc2 fs := by
        simp only [toolsFromFragments, hE]
        rfl
      rw [h2] at h
      rw [ih ((write m f).1) acc2 res h, foldlM_toolEventStep_content ((write m f).2) acc acc2 hE]
      have hev : oracleEvents write m (f :: fs)
          = (write m f).2 ++ oracleEvents write ((write m f).1) fs := rfl
      rw [hev, textSummary_append, optAppend_assoc]

/-- C10: when `extract_tool_calls` succeeds, its returned `content` folds
the texts of all oracle text events into one string regardless of their
`is_reasoning` flag (reasoning text is neither separated nor dropped), and
it is `none` exactly when no text event occurred over the whole run. -/
theorem full_toolcalls_content {τ σ : Type} (write : σ → Str → σ × List Event)
    (melody : σ) (encode : Str → List τ) (decode : List τ → Str) (model_output : Str)
    (info : ExtractedToolCallInformation)
    (h : extract_tool_calls write melody encode decode model_output = .ok info) :
    info.content = textSummary (oracleEvents write melody
      ((boundaryRun decode (encode model_output) []).1)) := by
  have h0 : extract_tool_calls write melody encode decode model_output
      = (List.foldlM (toolTokenStep write decode)
          (⟨[], melody, [], none⟩ : TLoop τ σ) (encode model_output))
        >>= (fun fin => pure (finalizeInfo fin.tool_calls fin.content)) := rfl
  rw [h0, tool_loop_factor write decode (encode model_output) [] melody [] none] at h
  rcases htf : toolsFromFragments write melody ([], none)
      ((boundaryRun decode (encode model_output) []).1) with e | p
  · rw [htf] at h
    have h2 : (Except.error e : Except PyExn ExtractedToolCallInformation) = .ok info := h
    cases h2
  · rw [htf] at h
    have h2 : (Except.ok (finalizeInfo p.2.1 p.2.2)
        : Except PyExn ExtractedToolCallInformation) = .ok info := h
    have h3 := (Except.ok.injEq _ _).mp h2
    have hc := toolsFromFragments_content write
      ((boundaryRun decode (encode model_output) []).1) melody ([], none) p htf
    rw [← h3]
    have h4 : (finalizeInfo p.2.1 p.2.2).content = p.2.2 := rfl
    rw [h4, hc, optAppend_none_left]

/-- Witness for `full_toolcalls_content` at the reasoning-echo oracle: the
reasoning-flagged text `"hi"` is returned as the content. -/
theorem full_toolcalls_content_witness :
    ({ tools_called := false, tool_calls := [], content := some (S "hi") }
        : ExtractedToolCallInformation).content
      = textSummary (oracleEvents reasonEcho ()
          ((boundaryRun joinS (encodeChunks (S "hi")) []).1)) :=
  full_toolcalls_content reasonEcho () encodeChunks joinS (S "hi")
    { tools_called := false, tool_calls := [], content := some (S "hi") } (by rfl)

end Melody

